import Mathlib

/-!
Shallow embedding of the JSON text engine in `ext/misc/json.c`:
the growable byte accumulator (`struct Json`), the recursive-descent
parser (`jsonParseValue` / `jsonParse`) producing a flat node array
(`JsonNode`), the renderer (`jsonRenderNode`), and the construction
helper `jsonArrayFunc` (SQL function `json_array`).

Modelling conventions:
* C byte strings are `List Char`; reading `zJson[i]` is `getC`, which
  returns the NUL character for any index at or past the end of the
  list, matching reads of the terminator of a NUL-terminated string.
* machine integers are `Nat`/`Int` (indices fit easily below 2^32 for
  all inputs considered here); `jsonParseValue` returns an `Int` code
  exactly as in C (positive = index past the value, 0 = end of input,
  -1 = syntax error, -2 = `}`, -3 = `]`).
* heap allocation always succeeds in the model; the sticky `oom` flag
  of the accumulator is still modelled, entering states by hypothesis
  or via `jsonOom`, since `jsonGrow` consults it.
* the mutual recursion of `jsonParseValue` with its object/array
  member loops, and of `jsonRenderNode` with its child loops, is made
  structural with an explicit fuel argument that decreases on every
  recursive call; `jsonParse` supplies `2 * length + 4` fuel, which is
  shown sufficient for every well-formed value.
-/

/-- The NUL terminator byte. -/
def nulC : Char := Char.ofNat 0

/-- Read byte `i` of a NUL-terminated string: past the end we read the
terminator. -/
def getC (s : List Char) (i : Nat) : Char := s.getD i nulC

/-- C `isspace` on the ASCII bytes that occur in JSON text:
space, `\t`, `\n`, vertical tab, form feed, `\r`. -/
def isSpaceB (c : Char) : Bool :=
  c = ' ' || c = '\t' || c = '\n' || c = Char.ofNat 11 || c = Char.ofNat 12 || c = '\r'

/-- C `isalnum` in the default locale: ASCII digits and letters. -/
def isAlnumB (c : Char) : Bool :=
  (48 ≤ c.toNat && c.toNat ≤ 57) || (97 ≤ c.toNat && c.toNat ≤ 122) ||
  (65 ≤ c.toNat && c.toNat ≤ 90)

/-- ASCII digit test (`c>='0' && c<='9'` in the C source). -/
def isDigitB (c : Char) : Bool := 48 ≤ c.toNat && c.toNat ≤ 57

/-- Byte list of a string literal. -/
def charsOf (s : String) : List Char := s.data

/-- JSON type values (`#define JSON_NULL 0` ... `#define JSON_OBJECT 7`). -/
def JSON_NULL : Nat := 0
def JSON_TRUE : Nat := 1
def JSON_FALSE : Nat := 2
def JSON_INT : Nat := 3
def JSON_REAL : Nat := 4
def JSON_STRING : Nat := 5
def JSON_ARRAY : Nat := 6
def JSON_OBJECT : Nat := 7

/-- A single node of parsed JSON (`struct JsonNode`).  `zJContent` is the
borrowed content span, modelled as the actual byte substring (`none`
models the C null pointer passed for literals and container headers). -/
structure JsonNode where
  eType : Nat
  bRaw : Bool
  n : Nat
  zJContent : Option (List Char)
  deriving DecidableEq, Repr

/-- Default node used to model a (never well-formed-reachable) out of
range `aNode[]` read. -/
def defNode : JsonNode := ⟨JSON_NULL, false, 0, none⟩

/-- The string accumulator (`struct Json`).  `zBuf` models the used
prefix of the buffer (`nUsed` bytes); `zSpace[100]` gives the initial
static capacity of 100. -/
structure Json where
  zBuf : List Char
  nAlloc : Nat
  nUsed : Nat
  bStatic : Bool
  oom : Bool
  deriving DecidableEq, Repr

/-- `jsonZero`: set the accumulator to the empty string over the static
space. -/
def jsonZero (p : Json) : Json :=
  { p with zBuf := [], nAlloc := 100, nUsed := 0, bStatic := true }

/-- `jsonInit` applied to a fresh object (the function context pointer is
host-side state and is not modelled). -/
def jsonInit0 : Json :=
  jsonZero { zBuf := [], nAlloc := 0, nUsed := 0, bStatic := true, oom := false }

/-- `jsonReset`: release heap storage and return to the initial state
(the `oom` flag is not cleared here). -/
def jsonReset (p : Json) : Json := jsonZero p

/-- `jsonOom`: record an out-of-memory condition and reset the buffer
(the host error report `sqlite3_result_error_nomem` is not modelled). -/
def jsonOom (p : Json) : Json := jsonReset { p with oom := true }

/-- `jsonGrow`: enlarge `zBuf` for at least `N` more bytes.  Allocation
itself always succeeds in the model, so the only failure is the sticky
latch: a static buffer whose `oom` flag is set.  Returns the new state
and `true` for `SQLITE_OK`, `false` for `SQLITE_NOMEM`. -/
def jsonGrow (p : Json) (N : Nat) : Json × Bool :=
  let nTotal := if N < p.nAlloc then p.nAlloc * 2 else p.nAlloc + N + 100
  if p.bStatic then
    if p.oom then (p, false)
    else ({ p with nAlloc := nTotal, bStatic := false }, true)
  else
    ({ p with nAlloc := nTotal }, true)

/-- Write one byte at `zBuf[nUsed++]` (capacity is ensured by the grow
calls at the call sites, as in the C source). -/
def jsonPush (p : Json) (c : Char) : Json :=
  { p with zBuf := p.zBuf ++ [c], nUsed := p.nUsed + 1 }

/-- `jsonAppendRaw`: append `N` bytes from `zIn`. -/
def jsonAppendRaw (p : Json) (zIn : List Char) (N : Nat) : Json :=
  if N + p.nUsed ≥ p.nAlloc then
    match jsonGrow p N with
    | (p2, false) => p2
    | (p2, true) => { p2 with zBuf := p2.zBuf ++ zIn.take N, nUsed := p2.nUsed + N }
  else
    { p with zBuf := p.zBuf ++ zIn.take N, nUsed := p.nUsed + N }

/-- `jsonAppendChar`: append a single character. -/
def jsonAppendChar (p : Json) (c : Char) : Json :=
  if p.nUsed ≥ p.nAlloc then
    match jsonGrow p 1 with
    | (p2, false) => p2
    | (p2, true) => jsonPush p2 c
  else
    jsonPush p c

/-- The escaping loop body of `jsonAppendString`: for each byte, a `"`
or `\` is preceded by a backslash (growing again mid-loop if needed);
the `Bool` is `false` when the C code hit the early `return`. -/
def jsonAppendStringLoop (p : Json) (zIn : List Char) (N : Nat) (i : Nat) :
    Json × Bool :=
  if _h : i < N then
    let c := zIn.getD i nulC
    if c = '"' || c = '\\' then
      if p.nUsed + N + 1 - i > p.nAlloc then
        match jsonGrow p (N + 1 - i) with
        | (p2, false) => (p2, false)
        | (p2, true) => jsonAppendStringLoop (jsonPush (jsonPush p2 '\\') c) zIn N (i + 1)
      else
        jsonAppendStringLoop (jsonPush (jsonPush p '\\') c) zIn N (i + 1)
    else
      jsonAppendStringLoop (jsonPush p c) zIn N (i + 1)
  else
    (p, true)
termination_by N - i

/-- `jsonAppendString`: append the `N`-byte string enclosed in double
quotes, escaping `"` and `\`. -/
def jsonAppendString (p : Json) (zIn : List Char) (N : Nat) : Json :=
  if N + p.nUsed + 2 ≥ p.nAlloc then
    match jsonGrow p (N + 2) with
    | (p2, false) => p2
    | (p2, true) =>
      match jsonAppendStringLoop (jsonPush p2 '"') zIn N 0 with
      | (p3, true) => jsonPush p3 '"'
      | (p3, false) => p3
  else
    match jsonAppendStringLoop (jsonPush p '"') zIn N 0 with
    | (p3, true) => jsonPush p3 '"'
    | (p3, false) => p3

/-- `jsonResult`: hand the accumulated bytes to the host when no OOM was
recorded (`sqlite3_result_text64`), else no value. -/
def jsonResult (p : Json) : Option (List Char) :=
  if p.oom then none else some p.zBuf

/-! ### The parser's scanning loops

Each C `for`/`while` scan over the input becomes a structurally
recursive walk of the input suffix `s.drop j`, carrying the absolute
index `j` along; `getC s j` of the original loop equals the head of the
suffix (or NUL past the end). -/

/-- The `while( isspace(zJson[i]) ){ i++; }` loop, walking the suffix. -/
def wsGo : List Char → Nat → Nat
  | [], i => i
  | c :: rest, i => if isSpaceB c then wsGo rest (i + 1) else i

/-- Index of the first non-whitespace byte at or after `i`. -/
def skipWs (s : List Char) (i : Nat) : Nat := wsGo (s.drop i) i

/-- The string-scanning loop of `jsonParseValue`, entered at `j = i+1`
just past the opening quote.  Returns the index of the closing quote,
or `none` for the `return -1` paths (terminator reached, possibly just
after a backslash). -/
def strGo : List Char → Nat → Option Nat
  | [], _ => none
  | c :: rest, j =>
    if c = nulC then none
    else if c = '\\' then
      match rest with
      | [] => none
      | c2 :: rest2 => if c2 = nulC then none else strGo rest2 (j + 2)
    else if c = '"' then some j
    else strGo rest (j + 1)

/-- `strScan s j`: run the string scan from absolute index `j`. -/
def strScan (s : List Char) (j : Nat) : Option Nat := strGo (s.drop j) j

/-- The number-scanning loop of `jsonParseValue`, entered at `j = i+1`
with `prev = zJson[j-1]` (the scan looks back one byte).  The C loop
additionally looks one byte ahead after an exponent marker to skip an
optional sign; that is modelled by the `afterE` state bit, which is set
exactly while the current byte is the one right after `e`/`E`, where a
`+`/`-` is consumed with no other tests.  Returns `(j, seenDP)` where
`j` is the first index past the number, or `none` for the `return -1`
paths (second `.`, `.` after `-`, `e` after a byte below `'0'`, second
`e`, or final byte below `'0'`). -/
def numGo : List Char → Char → Nat → Bool → Bool → Bool → Option (Nat × Bool)
  | l, prev, j, seenDP, seenE, afterE =>
    match l with
    | [] => if prev.toNat < 48 then none else some (j, seenDP)
    | c :: rest =>
      if afterE && (c = '+' || c = '-') then numGo rest c (j + 1) seenDP seenE false
      else if isDigitB c then numGo rest c (j + 1) seenDP seenE false
      else if c = '.' then
        if prev = '-' then none
        else if seenDP then none
        else numGo rest c (j + 1) true seenE false
      else if c = 'e' || c = 'E' then
        if prev.toNat < 48 then none
        else if seenE then none
        else numGo rest c (j + 1) true true true
      else if prev.toNat < 48 then none
      else some (j, seenDP)

/-- Match the literal `w` at index `i` (C `strncmp(zJson+i, w, n) == 0`). -/
def matchLit (s : List Char) (i : Nat) : List Char → Bool
  | [] => true
  | c :: rest => getC s i = c && matchLit s (i + 1) rest

/-! ### The parser -/

/-- `jsonParseAddNode`: append a node to the parse (allocation always
succeeds in the model; the fresh node index is the old length). -/
def jsonParseAddNode (ns : List JsonNode) (eType : Nat) (n : Nat)
    (zContent : Option (List Char)) : List JsonNode :=
  ns ++ [⟨eType, false, n, zContent⟩]

/-- The back-fill `aNode[iThis].n = v` once a container's extent is
known. -/
def setN (ns : List JsonNode) (iThis : Nat) (v : Nat) : List JsonNode :=
  ns.set iThis { ns.getD iThis defNode with n := v }

mutual

/-- `jsonParseValue`: parse one JSON value at `zJson[i]`, appending its
nodes to `ns`.  The `Int` result is the C return value: the index just
past the value on success, `0` when the terminator is reached where a
value was expected, `-1` for a syntax error, `-2` for `}`, `-3` for
`]`).  `fuel` decreases on every recursive call; `jsonParse` supplies
enough for any input it accepts. -/
def jsonParseValue : Nat → List Char → Nat → List JsonNode → Int × List JsonNode
  | 0, _, _, ns => (-1, ns)
  | fuel + 1, s, i0, ns =>
    let i := skipWs s i0
    let c := getC s i
    if c = nulC then (0, ns)
    else if c = '{' then
      jsonParseObj fuel s (i + 1) ns.length (jsonParseAddNode ns JSON_OBJECT 0 none)
    else if c = '[' then
      jsonParseArr fuel s (i + 1) ns.length (jsonParseAddNode ns JSON_ARRAY 0 none)
    else if c = '"' then
      match strScan s (i + 1) with
      | none => (-1, ns)
      | some j =>
        (((j + 1 : Nat) : Int),
          jsonParseAddNode ns JSON_STRING (j + 1 - i) (some ((s.drop i).take (j + 1 - i))))
    else if c = 'n' && matchLit s i (charsOf "null") && !isAlnumB (getC s (i + 4)) then
      (((i + 4 : Nat) : Int), jsonParseAddNode ns JSON_NULL 0 none)
    else if c = 't' && matchLit s i (charsOf "true") && !isAlnumB (getC s (i + 4)) then
      (((i + 4 : Nat) : Int), jsonParseAddNode ns JSON_TRUE 0 none)
    else if c = 'f' && matchLit s i (charsOf "false") && !isAlnumB (getC s (i + 5)) then
      (((i + 5 : Nat) : Int), jsonParseAddNode ns JSON_FALSE 0 none)
    else if c = '-' || isDigitB c then
      match numGo (s.drop (i + 1)) c (i + 1) false false false with
      | none => (-1, ns)
      | some (j, seenDP) =>
        ((j : Int),
          jsonParseAddNode ns (if seenDP then JSON_REAL else JSON_INT) (j - i)
            (some ((s.drop i).take (j - i))))
    else if c = '}' then (-2, ns)
    else if c = ']' then (-3, ns)
    else (-1, ns)
termination_by structural fuel => fuel

/-- The object pair loop of `jsonParseValue` (`for(j=i+1;;j++)` in the
`'{'` branch); one call is one iteration. -/
def jsonParseObj : Nat → List Char → Nat → Nat → List JsonNode → Int × List JsonNode
  | 0, _, _, _, ns => (-1, ns)
  | fuel + 1, s, j0, iThis, ns =>
    let j := skipWs s j0
    match jsonParseValue fuel s j ns with
    | (x, ns1) =>
      if x < 0 then
        if x = -2 && ns1.length = iThis + 1 then (((j + 1 : Nat) : Int), ns1)
        else (-1, ns1)
      else if (ns1.getD (ns1.length - 1) defNode).eType ≠ JSON_STRING then (-1, ns1)
      else
        let j1 := skipWs s x.toNat
        if getC s j1 ≠ ':' then (-1, ns1)
        else
          match jsonParseValue fuel s (j1 + 1) ns1 with
          | (x2, ns2) =>
            if x2 < 0 then (-1, ns2)
            else
              let j2 := skipWs s x2.toNat
              let c := getC s j2
              if c = ',' then jsonParseObj fuel s (j2 + 1) iThis ns2
              else if c ≠ '}' then (-1, ns2)
              else (((j2 + 1 : Nat) : Int), setN ns2 iThis (ns2.length - iThis - 1))
termination_by structural fuel => fuel

/-- The array element loop of `jsonParseValue` (`for(j=i+1;;j++)` in the
`'['` branch); one call is one iteration. -/
def jsonParseArr : Nat → List Char → Nat → Nat → List JsonNode → Int × List JsonNode
  | 0, _, _, _, ns => (-1, ns)
  | fuel + 1, s, j0, iThis, ns =>
    let j := skipWs s j0
    match jsonParseValue fuel s j ns with
    | (x, ns1) =>
      if x < 0 then
        if x = -3 && ns1.length = iThis + 1 then (((j + 1 : Nat) : Int), ns1)
        else (-1, ns1)
      else
        let j1 := skipWs s x.toNat
        let c := getC s j1
        if c = ',' then jsonParseArr fuel s (j1 + 1) iThis ns1
        else if c ≠ ']' then (-1, ns1)
        else (((j1 + 1 : Nat) : Int), setN ns1 iThis (ns1.length - iThis - 1))
termination_by structural fuel => fuel

end

/-- `jsonParse`: parse a complete JSON string.  Returns `(ok, nodes)`;
on any failure all partial nodes are discarded (`(false, [])`). -/
def jsonParse (s : List Char) : Bool × List JsonNode :=
  match jsonParseValue (2 * s.length + 4) s 0 [] with
  | (i, ns) =>
    if 0 < i then
      if getC s (skipWs s i.toNat) ≠ nulC then (false, [])
      else (true, ns)
    else if i < 0 then (false, [])
    else (true, ns)

/-! ### The renderer -/

mutual

/-- `jsonRenderNode`: append the pure JSON text of the subtree rooted at
`aNode[i]` to the accumulator and return the number of node slots
encoded (`j + 1`).  Fuel decreases on every recursive call; an
out-of-fuel call returns 1 having appended nothing (unreachable at the
fuel the top-level entry points supply for well-formed node arrays). -/
def jsonRenderNode : Nat → List JsonNode → Nat → Json → Nat × Json
  | 0, _, _, p => (1, p)
  | fuel + 1, a, i, p =>
    let nd := a.getD i defNode
    if nd.eType = JSON_NULL then (1, jsonAppendRaw p (charsOf "null") 4)
    else if nd.eType = JSON_TRUE then (1, jsonAppendRaw p (charsOf "true") 4)
    else if nd.eType = JSON_FALSE then (1, jsonAppendRaw p (charsOf "false") 5)
    else if nd.eType = JSON_STRING && nd.bRaw then
      (1, jsonAppendString p (nd.zJContent.getD []) nd.n)
    else if nd.eType = JSON_STRING || nd.eType = JSON_REAL || nd.eType = JSON_INT then
      (1, jsonAppendRaw p (nd.zJContent.getD []) nd.n)
    else if nd.eType = JSON_ARRAY then
      match jsonRenderArrLoop fuel a i (jsonAppendChar p '[') 0 nd.n with
      | (j, p1) => (j + 1, jsonAppendChar p1 ']')
    else if nd.eType = JSON_OBJECT then
      match jsonRenderObjLoop fuel a i (jsonAppendChar p '{') 0 nd.n with
      | (j, p1) => (j + 1, jsonAppendChar p1 '}')
    else (1, p)
termination_by structural fuel => fuel

/-- The `while( j < pNode->n )` child loop of the `JSON_ARRAY` case. -/
def jsonRenderArrLoop : Nat → List JsonNode → Nat → Json → Nat → Nat → Nat × Json
  | 0, _, _, p, j, _ => (j, p)
  | fuel + 1, a, i, p, j, n =>
    if j < n then
      let p1 := if 0 < j then jsonAppendChar p ',' else p
      match jsonRenderNode fuel a (i + j + 1) p1 with
      | (k, p2) => jsonRenderArrLoop fuel a i p2 (j + k) n
    else (j, p)
termination_by structural fuel => fuel

/-- The key/value child loop of the `JSON_OBJECT` case. -/
def jsonRenderObjLoop : Nat → List JsonNode → Nat → Json → Nat → Nat → Nat × Json
  | 0, _, _, p, j, _ => (j, p)
  | fuel + 1, a, i, p, j, n =>
    if j < n then
      let p1 := if 0 < j then jsonAppendChar p ',' else p
      match jsonRenderNode fuel a (i + j + 1) p1 with
      | (k, p2) =>
        match jsonRenderNode fuel a (i + (j + k) + 1) (jsonAppendChar p2 ':') with
        | (k2, p3) => jsonRenderObjLoop fuel a i p3 (j + k + k2) n
    else (j, p)
termination_by structural fuel => fuel

end

/-- Render the subtree at index `i` into a fresh accumulator, with the
standard fuel `2 * length + 4` (sufficient for every parsed array). -/
def jsonRenderTop (a : List JsonNode) (i : Nat) : Nat × Json :=
  jsonRenderNode (2 * a.length + 4) a i jsonInit0

mutual

/-- Spec-side comparison renderer for the claim that rendering a parsed
document never takes the re-escaping path: identical to
`jsonRenderNode` except that the `JSON_STRING` case unconditionally
emits the stored span verbatim (no `bRaw` test, no
`jsonAppendString`). -/
def jsonRenderNodeNE : Nat → List JsonNode → Nat → Json → Nat × Json
  | 0, _, _, p => (1, p)
  | fuel + 1, a, i, p =>
    let nd := a.getD i defNode
    if nd.eType = JSON_NULL then (1, jsonAppendRaw p (charsOf "null") 4)
    else if nd.eType = JSON_TRUE then (1, jsonAppendRaw p (charsOf "true") 4)
    else if nd.eType = JSON_FALSE then (1, jsonAppendRaw p (charsOf "false") 5)
    else if nd.eType = JSON_STRING || nd.eType = JSON_REAL || nd.eType = JSON_INT then
      (1, jsonAppendRaw p (nd.zJContent.getD []) nd.n)
    else if nd.eType = JSON_ARRAY then
      match jsonRenderArrLoopNE fuel a i (jsonAppendChar p '[') 0 nd.n with
      | (j, p1) => (j + 1, jsonAppendChar p1 ']')
    else if nd.eType = JSON_OBJECT then
      match jsonRenderObjLoopNE fuel a i (jsonAppendChar p '{') 0 nd.n with
      | (j, p1) => (j + 1, jsonAppendChar p1 '}')
    else (1, p)
termination_by structural fuel => fuel

/-- Array child loop of the comparison renderer. -/
def jsonRenderArrLoopNE : Nat → List JsonNode → Nat → Json → Nat → Nat → Nat × Json
  | 0, _, _, p, j, _ => (j, p)
  | fuel + 1, a, i, p, j, n =>
    if j < n then
      let p1 := if 0 < j then jsonAppendChar p ',' else p
      match jsonRenderNodeNE fuel a (i + j + 1) p1 with
      | (k, p2) => jsonRenderArrLoopNE fuel a i p2 (j + k) n
    else (j, p)
termination_by structural fuel => fuel

/-- Object child loop of the comparison renderer. -/
def jsonRenderObjLoopNE : Nat → List JsonNode → Nat → Json → Nat → Nat → Nat × Json
  | 0, _, _, p, j, _ => (j, p)
  | fuel + 1, a, i, p, j, n =>
    if j < n then
      let p1 := if 0 < j then jsonAppendChar p ',' else p
      match jsonRenderNodeNE fuel a (i + j + 1) p1 with
      | (k, p2) =>
        match jsonRenderNodeNE fuel a (i + (j + k) + 1) (jsonAppendChar p2 ':') with
        | (k2, p3) => jsonRenderObjLoopNE fuel a i p3 (j + k + k2) n
    else (j, p)
termination_by structural fuel => fuel

end

/-! ### `json_array` (the `build_array` construction helper) -/

/-- An external SQL argument value at the host boundary: the type tag
together with, for `INTEGER`/`FLOAT`/`TEXT`, the byte span
`sqlite3_value_text`/`sqlite3_value_bytes` would expose. -/
inductive SQLVal : Type where
  | vnull : SQLVal
  | vint : List Char → SQLVal
  | vfloat : List Char → SQLVal
  | vtext : List Char → SQLVal
  | vblob : SQLVal
  deriving DecidableEq, Repr

/-- The argument loop of `jsonArrayFunc`; `cSep` starts as `[` and
becomes `,`.  A BLOB argument aborts with the error
"JSON cannot hold BLOB values" (`none`). -/
def jsonArrayLoop (p : Json) (args : List SQLVal) (cSep : Char) : Option Json :=
  match args with
  | [] => some p
  | a :: rest =>
    let p1 := jsonAppendRaw p [cSep] 1
    match a with
    | .vnull => jsonArrayLoop (jsonAppendRaw p1 (charsOf "null") 4) rest ','
    | .vint z => jsonArrayLoop (jsonAppendRaw p1 z z.length) rest ','
    | .vfloat z => jsonArrayLoop (jsonAppendRaw p1 z z.length) rest ','
    | .vtext z => jsonArrayLoop (jsonAppendString p1 z z.length) rest ','
    | .vblob => none

/-- `jsonArrayFunc` (SQL `json_array(VALUE,...)`): build the result text
from the argument values, or fail on a BLOB argument. -/
def jsonArrayFunc (args : List SQLVal) : Option (List Char) :=
  match jsonArrayLoop jsonInit0 args '[' with
  | none => none
  | some p => jsonResult (jsonAppendRaw p (charsOf "]") 1)

/-! ### Value trees

A `JVal` is an abstract JSON value tree whose leaves carry the exact
source token text.  `emitV` prints it with no whitespace (the minimal
text), and `flattenV` is its pre-order flat node array exactly as the
parser builds it.  Object keys are full `JVal`s because the parser's
key check only inspects the type of the last node appended (so any
value whose final node is a String node is accepted as a key); the
well-formedness predicates used for the round-trip restrict keys to
string tokens. -/

mutual

inductive JVal : Type where
  | vnull : JVal
  | vtrue : JVal
  | vfalse : JVal
  | vnum : List Char → Bool → JVal
  | vstr : List Char → JVal
  | varr : JArr → JVal
  | vobj : JObj → JVal

inductive JArr : Type where
  | anil : JArr
  | acons : JVal → JArr → JArr

inductive JObj : Type where
  | onil : JObj
  | ocons : JVal → JVal → JObj → JObj

end

mutual

/-- Minimal (whitespace-free) text of a value; number and string tokens
are emitted verbatim. -/
def emitV : JVal → List Char
  | .vnull => charsOf "null"
  | .vtrue => charsOf "true"
  | .vfalse => charsOf "false"
  | .vnum t _ => t
  | .vstr t => t
  | .varr es => '[' :: (emitA es ++ [']'])
  | .vobj ms => '{' :: (emitO ms ++ ['}'])

/-- Comma-separated element texts of an array. -/
def emitA : JArr → List Char
  | .anil => []
  | .acons v .anil => emitV v
  | .acons v (.acons w es) => emitV v ++ ',' :: emitA (.acons w es)

/-- Comma-separated `key:value` texts of an object. -/
def emitO : JObj → List Char
  | .onil => []
  | .ocons k v .onil => emitV k ++ ':' :: emitV v
  | .ocons k v (.ocons k2 v2 ms) =>
    emitV k ++ ':' :: emitV v ++ ',' :: emitO (.ocons k2 v2 ms)

end

mutual

/-- Pre-order flat node array of a value, exactly as `jsonParseValue`
builds it: scalars carry their token span, containers carry the count
of all descendant nodes. -/
def flattenV : JVal → List JsonNode
  | .vnull => [⟨JSON_NULL, false, 0, none⟩]
  | .vtrue => [⟨JSON_TRUE, false, 0, none⟩]
  | .vfalse => [⟨JSON_FALSE, false, 0, none⟩]
  | .vnum t real => [⟨if real then JSON_REAL else JSON_INT, false, t.length, some t⟩]
  | .vstr t => [⟨JSON_STRING, false, t.length, some t⟩]
  | .varr es => ⟨JSON_ARRAY, false, (flattenA es).length, none⟩ :: flattenA es
  | .vobj ms => ⟨JSON_OBJECT, false, (flattenO ms).length, none⟩ :: flattenO ms

/-- Concatenated node arrays of array elements. -/
def flattenA : JArr → List JsonNode
  | .anil => []
  | .acons v es => flattenV v ++ flattenA es

/-- Concatenated node arrays of object keys and values. -/
def flattenO : JObj → List JsonNode
  | .onil => []
  | .ocons k v ms => flattenV k ++ flattenV v ++ flattenO ms

end

/-- A nonempty run of ASCII digits. -/
def digitsNE (l : List Char) : Prop := l ≠ [] ∧ ∀ c ∈ l, isDigitB c = true

/-- A number token exactly as the parser's number scan accepts it (the
standard JSON shape, leading zeros allowed): optional `-`, a nonempty
digit run, an optional fraction `.` followed by a nonempty digit run,
an optional exponent `e`/`E` with optional sign and a nonempty digit
run.  `real` records whether a fraction or exponent is present (the
parser's `seenDP`). -/
def NumTok (t : List Char) (real : Bool) : Prop :=
  ∃ sgn d1 fr ex, t = sgn ++ d1 ++ fr ++ ex ∧
    (sgn = [] ∨ sgn = ['-']) ∧ digitsNE d1 ∧
    (fr = [] ∨ ∃ d2, fr = '.' :: d2 ∧ digitsNE d2) ∧
    (ex = [] ∨ ∃ e sg d3, ex = e :: (sg ++ d3) ∧ (e = 'e' ∨ e = 'E') ∧
      (sg = [] ∨ sg = ['+'] ∨ sg = ['-']) ∧ digitsNE d3) ∧
    (real = true ↔ (fr ≠ [] ∨ ex ≠ []))

/-- The interior of a string token as the parser's string scan walks
it: any byte other than NUL, `\` and `"`, or a backslash followed by
any non-NUL byte. -/
inductive StrBody : List Char → Prop where
  | nil : StrBody []
  | esc (c : Char) (rest : List Char) : c ≠ nulC → StrBody rest →
      StrBody ('\\' :: c :: rest)
  | chr (c : Char) (rest : List Char) : c ≠ nulC → c ≠ '\\' → c ≠ '"' →
      StrBody rest → StrBody (c :: rest)

/-- A complete string token: quotes around a scannable interior. -/
def StrTok (t : List Char) : Prop :=
  ∃ b, t = '"' :: (b ++ ['"']) ∧ StrBody b

mutual

/-- Well-formed value: every token is one the parser accepts, and every
object key is a string token. -/
def WfV : JVal → Prop
  | .vnull => True
  | .vtrue => True
  | .vfalse => True
  | .vnum t real => NumTok t real
  | .vstr t => StrTok t
  | .varr es => WfA es
  | .vobj ms => WfO ms

/-- Well-formed array elements. -/
def WfA : JArr → Prop
  | .anil => True
  | .acons v es => WfV v ∧ WfA es

/-- Well-formed object members (keys are string tokens). -/
def WfO : JObj → Prop
  | .onil => True
  | .ocons k v ms => (∃ t, k = JVal.vstr t ∧ StrTok t) ∧ WfV v ∧ WfO ms

end

/-! ### Accumulator lemmas -/

/-- Growing never changes the recorded bytes, the used length or the
`oom` flag. -/
theorem jsonGrow_fst (p : Json) (N : Nat) :
    (jsonGrow p N).1.zBuf = p.zBuf ∧ (jsonGrow p N).1.nUsed = p.nUsed ∧
    (jsonGrow p N).1.oom = p.oom := by
  simp only [jsonGrow]
  split_ifs <;> simp

/-- In a state with no recorded OOM, growing succeeds. -/
theorem jsonGrow_ok (p : Json) (N : Nat) (h : p.oom = false) :
    (jsonGrow p N).2 = true := by
  simp only [jsonGrow, h]
  split_ifs <;> simp_all

/-- In a state with no recorded OOM, `jsonAppendRaw` appends the first
`N` bytes of its argument and preserves the flag. -/
theorem jsonAppendRaw_ok (p : Json) (z : List Char) (N : Nat) (h : p.oom = false) :
    (jsonAppendRaw p z N).zBuf = p.zBuf ++ z.take N ∧
    (jsonAppendRaw p z N).oom = false := by
  unfold jsonAppendRaw
  split
  · have h2 := jsonGrow_ok p N h
    have h1 := jsonGrow_fst p N
    cases hg : jsonGrow p N with
    | mk q ok =>
      rw [hg] at h2 h1
      cases ok
      · simp at h2
      · simp only []
        constructor
        · rw [h1.1]
        · have : q.oom = p.oom := h1.2.2
          rw [this, h]
  · exact ⟨rfl, h⟩

/-- In a state with no recorded OOM, `jsonAppendChar` appends its byte
and preserves the flag. -/
theorem jsonAppendChar_ok (p : Json) (c : Char) (h : p.oom = false) :
    (jsonAppendChar p c).zBuf = p.zBuf ++ [c] ∧
    (jsonAppendChar p c).oom = false := by
  unfold jsonAppendChar
  split
  · have h2 := jsonGrow_ok p 1 h
    have h1 := jsonGrow_fst p 1
    cases hg : jsonGrow p 1 with
    | mk q ok =>
      rw [hg] at h2 h1
      cases ok
      · simp at h2
      · simp only [jsonPush]
        constructor
        · rw [h1.1]
        · have : q.oom = p.oom := h1.2.2
          rw [this, h]
  · exact ⟨rfl, h⟩

/-- One escaped byte of output: `"` and `\` get a preceding
backslash. -/
def escC (c : Char) : List Char := if c = '"' || c = '\\' then ['\\', c] else [c]

/-- Escaped form of a byte list. -/
def escL (l : List Char) : List Char := (l.map escC).flatten

/-- `jsonPush` preserves the `oom` flag and appends one byte. -/
theorem jsonPush_zBuf (p : Json) (c : Char) :
    (jsonPush p c).zBuf = p.zBuf ++ [c] ∧ (jsonPush p c).oom = p.oom :=
  ⟨rfl, rfl⟩

/-- Dropping one more element after `take`, at an index inside the
list. -/
theorem take_drop_cons : ∀ (z : List Char) (N i : Nat), i < N → i < z.length →
    (z.take N).drop i = z.getD i nulC :: (z.take N).drop (i + 1) := by
  intro z
  induction z with
  | nil => intro N i _ h2; exact absurd h2 (by simp)
  | cons c rest ih =>
    intro N i h1 h2
    cases N with
    | zero => omega
    | succ N =>
      cases i with
      | zero => simp [List.getD]
      | succ i =>
        simp only [List.take_succ_cons, List.drop_succ_cons, List.getD_cons_succ]
        exact ih N i (by omega) (by simpa using h2)

/-- In a state with no recorded OOM, the escaping loop writes the
escaped form of bytes `i..N` and reports no early return. -/
theorem jsonAppendStringLoop_ok :
    ∀ (p : Json) (z : List Char) (N i : Nat), N ≤ z.length → p.oom = false →
    ((jsonAppendStringLoop p z N i).1.zBuf
        = p.zBuf ++ escL ((z.take N).drop i) ∧
      (jsonAppendStringLoop p z N i).1.oom = false ∧
      (jsonAppendStringLoop p z N i).2 = true) := by
  intro p z N i
  induction p, z, N, i using jsonAppendStringLoop.induct with
  | case1 p z N i hi c hc hcap q hok =>
    intro hNz h
    have hg := jsonGrow_ok p (N + 1 - i) h
    rw [hok] at hg
    simp at hg
  | case2 p z N i hi c hc hcap q hok ih =>
    intro hNz h
    have hq := jsonGrow_fst p (N + 1 - i)
    rw [hok] at hq
    have hqo : q.oom = false := by
      have h2 := hq.2.2
      simp only [] at h2
      rw [h2, h]
    have ihh := ih hNz (by simp [jsonPush, hqo])
    rw [jsonAppendStringLoop.eq_def]
    simp only [dif_pos hi]
    rw [show z.getD i nulC = c from rfl, if_pos hc, if_pos hcap, hok]
    refine ⟨?_, ihh.2.1, ihh.2.2⟩
    rw [ihh.1, take_drop_cons z N i hi (by omega),
      show z.getD i nulC = c from rfl]
    have hc2 : c = '"' ∨ c = '\\' := by simpa using hc
    have hq1 : q.zBuf = p.zBuf := by simpa using hq.1
    simp [jsonPush, escL, escC, hq1, hc2]
  | case3 p z N i hi c hc hcap ih =>
    intro hNz h
    have ihh := ih hNz (by simp [jsonPush, h])
    rw [jsonAppendStringLoop.eq_def]
    simp only [dif_pos hi]
    rw [show z.getD i nulC = c from rfl, if_pos hc, if_neg hcap]
    refine ⟨?_, ihh.2.1, ihh.2.2⟩
    rw [ihh.1, take_drop_cons z N i hi (by omega),
      show z.getD i nulC = c from rfl]
    have hc2 : c = '"' ∨ c = '\\' := by simpa using hc
    simp [jsonPush, escL, escC, hc2]
  | case4 p z N i hi c hc ih =>
    intro hNz h
    have ihh := ih hNz (by simp [jsonPush, h])
    rw [jsonAppendStringLoop.eq_def]
    simp only [dif_pos hi]
    rw [show z.getD i nulC = c from rfl, if_neg hc]
    refine ⟨?_, ihh.2.1, ihh.2.2⟩
    rw [ihh.1, take_drop_cons z N i hi (by omega),
      show z.getD i nulC = c from rfl]
    have hc2 : ¬(c = '"' ∨ c = '\\') := by
      intro hor
      apply hc
      rcases hor with h1 | h1 <;> simp [h1]
    simp [jsonPush, escL, escC, hc2]
  | case5 p z N i hi =>
    intro hNz h
    rw [jsonAppendStringLoop.eq_def]
    simp only [dif_neg hi]
    refine ⟨?_, h, by simp⟩
    have hd : (z.take N).drop i = [] := by
      apply List.drop_eq_nil_of_le
      simp
      omega
    simp [hd, escL]

/-- In a state with no recorded OOM, `jsonAppendString` appends the
opening quote, the escaped bytes and the closing quote. -/
theorem jsonAppendString_ok (p : Json) (z : List Char) (N : Nat) (hNz : N ≤ z.length)
    (h : p.oom = false) :
    (jsonAppendString p z N).zBuf = p.zBuf ++ '"' :: (escL (z.take N) ++ ['"']) ∧
    (jsonAppendString p z N).oom = false := by
  have key : ∀ q : Json, q.oom = false → q.zBuf = p.zBuf →
      ((match jsonAppendStringLoop (jsonPush q '"') z N 0 with
        | (p3, true) => jsonPush p3 '"'
        | (p3, false) => p3).zBuf = p.zBuf ++ '"' :: (escL (z.take N) ++ ['"']) ∧
       (match jsonAppendStringLoop (jsonPush q '"') z N 0 with
        | (p3, true) => jsonPush p3 '"'
        | (p3, false) => p3).oom = false) := by
    intro q hq hqb
    have hl := jsonAppendStringLoop_ok (jsonPush q '"') z N 0 hNz (by simp [jsonPush, hq])
    cases hres : jsonAppendStringLoop (jsonPush q '"') z N 0 with
    | mk p3 ok =>
      rw [hres] at hl
      cases ok
      · exact absurd hl.2.2 (by simp)
      · refine ⟨?_, by simpa [jsonPush] using hl.2.1⟩
        have h1 := hl.1
        simp only [jsonPush] at h1 ⊢
        simp only [h1, hqb]
        simp
  unfold jsonAppendString
  split
  · have hg2 := jsonGrow_ok p (N + 2) h
    have hg1 := jsonGrow_fst p (N + 2)
    cases hg : jsonGrow p (N + 2) with
    | mk q ok =>
      rw [hg] at hg2 hg1
      cases ok
      · exact absurd hg2 (by simp)
      · exact key q (by simpa using hg1.2.2.trans h) (by simpa using hg1.1)
  · exact key p h rfl

/-- No append operation ever changes the `oom` flag (in particular none
clears it): the escaping loop. -/
theorem jsonAppendStringLoop_oom : ∀ (p : Json) (z : List Char) (N i : Nat),
    (jsonAppendStringLoop p z N i).1.oom = p.oom := by
  intro p z N i
  induction p, z, N, i using jsonAppendStringLoop.induct with
  | case1 p z N i hi c hc hcap q hok =>
    have hq := jsonGrow_fst p (N + 1 - i)
    rw [hok] at hq
    rw [jsonAppendStringLoop.eq_def]
    simp only [dif_pos hi]
    rw [show z.getD i nulC = c from rfl, if_pos hc, if_pos hcap, hok]
    simpa using hq.2.2
  | case2 p z N i hi c hc hcap q hok ih =>
    have hq := jsonGrow_fst p (N + 1 - i)
    rw [hok] at hq
    rw [jsonAppendStringLoop.eq_def]
    simp only [dif_pos hi]
    rw [show z.getD i nulC = c from rfl, if_pos hc, if_pos hcap, hok]
    rw [ih]
    simpa [jsonPush] using hq.2.2
  | case3 p z N i hi c hc hcap ih =>
    rw [jsonAppendStringLoop.eq_def]
    simp only [dif_pos hi]
    rw [show z.getD i nulC = c from rfl, if_pos hc, if_neg hcap, ih]
    simp [jsonPush]
  | case4 p z N i hi c hc ih =>
    rw [jsonAppendStringLoop.eq_def]
    simp only [dif_pos hi]
    rw [show z.getD i nulC = c from rfl, if_neg hc, ih]
    simp [jsonPush]
  | case5 p z N i hi =>
    rw [jsonAppendStringLoop.eq_def]
    simp only [dif_neg hi]

/-- `jsonAppendRaw` never changes the `oom` flag. -/
theorem jsonAppendRaw_oom (p : Json) (z : List Char) (N : Nat) :
    (jsonAppendRaw p z N).oom = p.oom := by
  unfold jsonAppendRaw
  split
  · have hq := jsonGrow_fst p N
    cases hg : jsonGrow p N with
    | mk q ok =>
      rw [hg] at hq
      cases ok
      · simpa using hq.2.2
      · simpa using hq.2.2
  · rfl

/-- `jsonAppendChar` never changes the `oom` flag. -/
theorem jsonAppendChar_oom (p : Json) (c : Char) :
    (jsonAppendChar p c).oom = p.oom := by
  unfold jsonAppendChar
  split
  · have hq := jsonGrow_fst p 1
    cases hg : jsonGrow p 1 with
    | mk q ok =>
      rw [hg] at hq
      cases ok
      · simpa using hq.2.2
      · simpa [jsonPush] using hq.2.2
  · rfl

/-- `jsonAppendString` never changes the `oom` flag. -/
theorem jsonAppendString_oom (p : Json) (z : List Char) (N : Nat) :
    (jsonAppendString p z N).oom = p.oom := by
  have key : ∀ q : Json, q.oom = p.oom →
      (match jsonAppendStringLoop (jsonPush q '"') z N 0 with
        | (p3, true) => jsonPush p3 '"'
        | (p3, false) => p3).oom = p.oom := by
    intro q hq
    have hl := jsonAppendStringLoop_oom (jsonPush q '"') z N 0
    cases hres : jsonAppendStringLoop (jsonPush q '"') z N 0 with
    | mk p3 ok =>
      rw [hres] at hl
      cases ok
      · simp only []
        rw [show (p3, false).1.oom = p3.oom from rfl] at hl
        rw [hl]
        simpa [jsonPush] using hq
      · simp only [jsonPush]
        rw [show (p3, true).1.oom = p3.oom from rfl] at hl
        rw [hl]
        simpa [jsonPush] using hq
  unfold jsonAppendString
  split
  · have hq := jsonGrow_fst p (N + 2)
    cases hg : jsonGrow p (N + 2) with
    | mk q ok =>
      rw [hg] at hq
      cases ok
      · simpa using hq.2.2
      · exact key q (by simpa using hq.2.2)
  · exact key p rfl

/-! ### Claims C3, C5, C6, C7 -/

/-- Claim C3, counterexample: in the state `jsonOom` leaves behind
(sticky flag set, buffer reset onto the 100-byte static space, no
intervening reset), appending a single byte is NOT a no-op — it writes
the byte and bumps the used length from 0 to 1 — because the append
only consults `jsonGrow` (and hence the sticky flag) when the data
does not fit in the remaining capacity. -/
theorem C3_small_append_after_oom_writes :
    (jsonAppendChar (jsonOom jsonInit0) 'a').nUsed ≠ (jsonOom jsonInit0).nUsed ∧
    (jsonAppendChar (jsonOom jsonInit0) 'a').zBuf ≠ (jsonOom jsonInit0).zBuf ∧
    (jsonOom jsonInit0).oom = true := by decide

/-- Claim C3 (amended): once the sticky OOM flag is set the buffer is
static (that is the state `jsonOom` leaves), and from any such state
every growth request fails and returns the state unchanged, so every
append operation whose size check requires growth — `jsonAppendRaw`
with `nAlloc ≤ N + nUsed`, `jsonAppendChar` with `nAlloc ≤ nUsed`,
`jsonAppendString` with `nAlloc ≤ N + nUsed + 2` — is a no-op; the
flag itself survives every append unchanged, and `jsonResult` yields
no value, so the buffer stays invalid until a fresh `jsonInit`.
(Appends that still fit in the remaining static capacity do write,
per the counterexample.) -/
theorem C3_oom_latch (p : Json) (z : List Char) (N : Nat) (c : Char)
    (hoom : p.oom = true) (hst : p.bStatic = true) :
    jsonGrow p N = (p, false) ∧
    (p.nAlloc ≤ N + p.nUsed → jsonAppendRaw p z N = p) ∧
    (p.nAlloc ≤ p.nUsed → jsonAppendChar p c = p) ∧
    (p.nAlloc ≤ N + p.nUsed + 2 → jsonAppendString p z N = p) ∧
    (jsonAppendRaw p z N).oom = true ∧
    (jsonAppendChar p c).oom = true ∧
    (jsonAppendString p z N).oom = true ∧
    jsonResult (jsonAppendRaw p z N) = none := by
  have hgrow : ∀ M : Nat, jsonGrow p M = (p, false) := by
    intro M
    unfold jsonGrow
    rw [hst, hoom]
    simp
  refine ⟨hgrow N, ?_, ?_, ?_, ?_, ?_, ?_, ?_⟩
  · intro hcap
    unfold jsonAppendRaw
    rw [if_pos (by omega), hgrow N]
  · intro hcap
    unfold jsonAppendChar
    rw [if_pos (by omega), hgrow 1]
  · intro hcap
    unfold jsonAppendString
    rw [if_pos (by omega), hgrow (N + 2)]
  · rw [jsonAppendRaw_oom, hoom]
  · rw [jsonAppendChar_oom, hoom]
  · rw [jsonAppendString_oom, hoom]
  · unfold jsonResult
    rw [jsonAppendRaw_oom, hoom]
    simp

/-- Witness for `C3_oom_latch` at the concrete post-`jsonOom` state with
an append too large for the static space. -/
theorem C3_oom_latch_witness :
    jsonGrow (jsonOom jsonInit0) 200 = (jsonOom jsonInit0, false) ∧
    jsonAppendRaw (jsonOom jsonInit0) (charsOf "x") 200 = jsonOom jsonInit0 :=
  ⟨(C3_oom_latch (jsonOom jsonInit0) (charsOf "x") 200 'a' (by decide) (by decide)).1,
   (C3_oom_latch (jsonOom jsonInit0) (charsOf "x") 200 'a' (by decide)
      (by decide)).2.1 (by decide)⟩

/-- Claim C4, counterexample: an input containing no JSON value at all —
the empty text, or whitespace only — does NOT yield a syntax-error
outcome: `jsonParse` reports success, with zero nodes (the
`return 0` path of `jsonParseValue` is neither positive nor negative,
so `jsonParse` falls through to its success return). -/
theorem C4_empty_input_parses :
    jsonParse [] = (true, []) ∧ jsonParse (charsOf " ") = (true, []) := by decide

/-- Claim C5: evaluating `json_array` on the failing input — the empty
argument sequence — returns the single byte `]`, not `[]`: the opening
bracket is only ever emitted as the separator preceding a first value. -/
theorem C5_empty_json_array_eval :
    jsonArrayFunc [] = some (charsOf "]") ∧ charsOf "]" ≠ charsOf "[]" := by decide

/-- Claim C6: the number grammar on the four specified inputs —
`1.2.3` fails (second decimal point), `-` fails (no digits), `1e10`
succeeds as a single Real node whose content span is the verbatim text,
`007` succeeds as a single Int node whose content span is the verbatim
text (no normalization). -/
theorem C6_number_grammar :
    jsonParse (charsOf "1.2.3") = (false, []) ∧
    jsonParse (charsOf "-") = (false, []) ∧
    jsonParse (charsOf "1e10")
      = (true, [⟨JSON_REAL, false, 4, some (charsOf "1e10")⟩]) ∧
    jsonParse (charsOf "007")
      = (true, [⟨JSON_INT, false, 3, some (charsOf "007")⟩]) := by decide

/-- Claim C7: the literals are recognized only when not followed by an
alphanumeric byte: `nullable` is a syntax error, while `null` parses to
a single Null node. -/
theorem C7_literal_boundary :
    jsonParse (charsOf "nullable") = (false, []) ∧
    jsonParse (charsOf "null") = (true, [⟨JSON_NULL, false, 0, none⟩]) := by decide

/-! ### Claim C8 -/

/-- Claim C8: failed-parse atomicity — whenever `jsonParse` reports
failure, the node array handed back is empty (the partially built node
sequence is discarded in full; there are zero usable nodes). -/
theorem C8_failed_parse_discards (s : List Char) (h : (jsonParse s).1 = false) :
    (jsonParse s).2 = [] := by
  unfold jsonParse at h ⊢
  rcases hpv : jsonParseValue (2 * s.length + 4) s 0 [] with ⟨i, ns⟩
  rw [hpv] at h
  dsimp only at h ⊢
  split_ifs at h ⊢
  all_goals first
  | rfl
  | (exfalso; omega)
  | simp_all

/-- Witness for `C8_failed_parse_discards` at the specified trailing
comma object text. -/
theorem C8_failed_parse_discards_witness :
    (jsonParse (charsOf "\x7b\"a\":1,\x7d")).1 = false ∧
    (jsonParse (charsOf "\x7b\"a\":1,\x7d")).2 = [] :=
  ⟨by decide, C8_failed_parse_discards (charsOf "\x7b\"a\":1,\x7d") (by decide)⟩

/-! ### Claim C4 -/

/-- A successful number scan never moves backwards. -/
theorem numGo_ge : ∀ (l : List Char) (prev : Char) (j : Nat) (dp se ae : Bool)
    (j2 : Nat) (dp2 : Bool), numGo l prev j dp se ae = some (j2, dp2) → j ≤ j2 := by
  intro l
  induction l with
  | nil =>
    intro prev j dp se ae j2 dp2 h
    simp only [numGo] at h
    split_ifs at h
    simp at h
    omega
  | cons c rest ih =>
    intro prev j dp se ae j2 dp2 h
    simp only [numGo] at h
    split_ifs at h <;>
      first
      | (exact Nat.le_of_succ_le (ih _ _ _ _ _ _ _ h))
      | (simp at h; omega)

set_option maxHeartbeats 1000000 in
/-- The object and array member loops never return 0, and
`jsonParseValue` returns 0 exactly when the first non-whitespace byte
at the parse position is the terminator, in which case it appends no
node. -/
theorem parse_ret_zero : ∀ fuel : Nat,
    (∀ s i ns, ((jsonParseValue fuel s i ns).1 = 0 →
        getC s (skipWs s i) = nulC ∧ (jsonParseValue fuel s i ns).2 = ns) ∧
      (0 < fuel → getC s (skipWs s i) = nulC → jsonParseValue fuel s i ns = (0, ns))) ∧
    (∀ s j0 iThis ns, (jsonParseObj fuel s j0 iThis ns).1 ≠ 0) ∧
    (∀ s j0 iThis ns, (jsonParseArr fuel s j0 iThis ns).1 ≠ 0) := by
  intro fuel
  induction fuel with
  | zero =>
    refine ⟨fun s i ns => ⟨?_, ?_⟩, fun s j0 iThis ns => ?_, fun s j0 iThis ns => ?_⟩
    · intro h
      simp [jsonParseValue] at h
    · intro h
      omega
    · simp [jsonParseObj]
    · simp [jsonParseArr]
  | succ n ih =>
    obtain ⟨ihP, ihQ, ihR⟩ := ih
    refine ⟨fun s i ns => ⟨?_, ?_⟩, fun s j0 iThis ns => ?_, fun s j0 iThis ns => ?_⟩
    · intro h
      by_cases hnul : getC s (skipWs s i) = nulC
      · exact ⟨hnul, by simp [jsonParseValue, hnul]⟩
      · exfalso
        simp only [jsonParseValue] at h
        rw [if_neg hnul] at h
        split_ifs at h
        · exact ihQ _ _ _ _ h
        · exact ihR _ _ _ _ h
        · rcases hm : strScan s (skipWs s i + 1) with _ | j
          · rw [hm] at h
            simp at h
          · rw [hm] at h
            simp only [] at h
            omega
        · simp only [] at h
          omega
        · simp only [] at h
          omega
        · simp only [] at h
          omega
        · rcases hm : numGo (s.drop (skipWs s i + 1)) (getC s (skipWs s i))
              (skipWs s i + 1) false false false with _ | ⟨j, dp⟩
          · rw [hm] at h
            simp at h
          · rw [hm] at h
            have := numGo_ge _ _ _ _ _ _ _ _ hm
            simp only [] at h
            omega
        · simp only [] at h
          omega
        · simp only [] at h
          omega
        · simp at h
    · intro hf hnul
      simp [jsonParseValue, hnul]
    · -- the object loop never returns 0
      simp only [jsonParseObj]
      rcases hv : jsonParseValue n s (skipWs s j0) ns with ⟨x, ns1⟩
      dsimp only
      split_ifs
      all_goals first
      | (dsimp only; omega)
      | (exact ihQ _ _ _ _)
    · -- the array loop never returns 0
      simp only [jsonParseArr]
      rcases hv : jsonParseValue n s (skipWs s j0) ns with ⟨x, ns1⟩
      dsimp only
      split_ifs
      all_goals first
      | (dsimp only; omega)
      | (exact ihR _ _ _ _)

/-- Skipping whitespace over an all-whitespace list reaches its end. -/
theorem wsGo_all : ∀ (l : List Char) (i : Nat),
    (∀ c ∈ l, isSpaceB c = true) → wsGo l i = i + l.length := by
  intro l
  induction l with
  | nil => intro i _; simp [wsGo]
  | cons c rest ih =>
    intro i h
    have hc : isSpaceB c = true := h c (by simp)
    simp only [wsGo, hc, if_true]
    rw [ih (i + 1) (fun d hd => h d (by simp [hd]))]
    simp
    omega

/-- Claim C4 (amended): after the top-level value is parsed, the whole
parse succeeds iff everything from the returned index to the
terminator is whitespace — any trailing non-whitespace byte is a
syntax error — and a negative value-parse result is a failure with no
nodes; BUT an input with no JSON value at all (the value parse hits
the terminator and returns 0, as it does for empty or whitespace-only
input) is reported as a SUCCESS with zero nodes, not as a syntax
error. -/
theorem C4_whole_input_exactness (s : List Char) (x : Int) (ns : List JsonNode)
    (hpv : jsonParseValue (2 * s.length + 4) s 0 [] = (x, ns)) :
    (0 < x →
      ((getC s (skipWs s x.toNat) = nulC → jsonParse s = (true, ns)) ∧
       (getC s (skipWs s x.toNat) ≠ nulC → jsonParse s = (false, [])))) ∧
    (x < 0 → jsonParse s = (false, [])) ∧
    (x = 0 → ns = [] ∧ getC s (skipWs s 0) = nulC ∧ jsonParse s = (true, [])) ∧
    ((∀ c ∈ s, isSpaceB c = true) → jsonParse s = (true, [])) := by
  have hunf : jsonParse s = (if 0 < x then
      (if getC s (skipWs s x.toNat) ≠ nulC then (false, []) else (true, ns))
      else if x < 0 then (false, []) else (true, ns)) := by
    unfold jsonParse
    rw [hpv]
  refine ⟨?_, ?_, ?_, ?_⟩
  · intro hx
    constructor
    · intro hnul
      rw [hunf, if_pos hx, if_neg (by simpa using hnul)]
    · intro hnul
      rw [hunf, if_pos hx, if_pos hnul]
  · intro hx
    rw [hunf, if_neg (by omega), if_pos hx]
  · intro hx
    have hz := (((parse_ret_zero (2 * s.length + 4)).1 s 0 []).1 (by rw [hpv, hx]))
    rw [hpv] at hz
    have hns : ns = [] := hz.2
    refine ⟨hns, hz.1, ?_⟩
    rw [hunf, if_neg (by omega), if_neg (by omega), hns]
  · intro hws
    have hnul : getC s (skipWs s 0) = nulC := by
      unfold skipWs
      rw [List.drop_zero, wsGo_all s 0 hws]
      unfold getC
      exact List.getD_eq_default _ _ (by omega)
    have h0 := ((parse_ret_zero (2 * s.length + 4)).1 s 0 []).2 (by omega) hnul
    rw [hpv] at h0
    have hx : x = 0 := by
      have := congrArg Prod.fst h0
      simpa using this
    have hns : ns = [] := by
      have := congrArg Prod.snd h0
      simpa using this
    rw [hunf, if_neg (by omega), if_neg (by omega), hns]

/-- Witness for `C4_whole_input_exactness`: trailing garbage after the
top-level value fails, trailing whitespace succeeds. -/
theorem C4_whole_input_exactness_witness :
    jsonParse (charsOf "null x") = (false, []) ∧
    jsonParse (charsOf "null ") = (true, [⟨JSON_NULL, false, 0, none⟩]) :=
  ⟨((C4_whole_input_exactness (charsOf "null x") 4 [⟨JSON_NULL, false, 0, none⟩]
      (by decide)).1 (by decide)).2 (by decide),
   ((C4_whole_input_exactness (charsOf "null ") 4 [⟨JSON_NULL, false, 0, none⟩]
      (by decide)).1 (by decide)).1 (by decide)⟩

/-! ### Parse shape: every successful parse is a pre-order flattening -/

/-- Every `flattenV` image is nonempty (each constructor contributes
its own node). -/
theorem flattenV_pos (v : JVal) : 1 ≤ (flattenV v).length := by
  cases v <;> simp [flattenV]

/-- Back-filling the size of the node sitting right after a prefix. -/
theorem setN_append : ∀ (xs : List JsonNode) (y : JsonNode) (zs : List JsonNode) (v : Nat),
    setN (xs ++ y :: zs) xs.length v = xs ++ { y with n := v } :: zs := by
  intro xs
  induction xs with
  | nil => intro y zs v; simp [setN, List.getD]
  | cons a rest ih =>
    intro y zs v
    have ihh := ih y zs v
    simp only [setN] at ihh ⊢
    simp only [List.cons_append, List.length_cons, List.getD_cons_succ, List.set_cons_succ]
    rw [ihh]

/-- A successful string scan moves forward and stays inside the walked
suffix (auxiliary strong induction on a length bound). -/
theorem strGo_lt_aux : ∀ (n : Nat) (l : List Char) (j j2 : Nat), l.length ≤ n →
    strGo l j = some j2 → j ≤ j2 ∧ j2 < j + l.length := by
  intro n
  induction n with
  | zero =>
    intro l j j2 hn h
    have : l = [] := List.eq_nil_of_length_eq_zero (by omega)
    subst this
    simp [strGo] at h
  | succ n ih =>
    intro l j j2 hn h
    cases l with
    | nil => simp [strGo] at h
    | cons c rest =>
      rw [strGo.eq_def] at h
      dsimp only at h
      split_ifs at h with h1 h2 h3
      · cases rest with
        | nil => simp at h
        | cons c2 rest2 =>
          dsimp only at h
          split_ifs at h with h4
          have := ih rest2 (j + 2) j2 (by simp at hn ⊢; omega) h
          simp only [List.length_cons]
          omega
      · simp only [Option.some.injEq] at h
        simp [← h]
      · have := ih rest (j + 1) j2 (by simp at hn ⊢; omega) h
        simp only [List.length_cons]
        omega

/-- A successful string scan stays inside the walked suffix. -/
theorem strGo_lt (l : List Char) (j j2 : Nat) (h : strGo l j = some j2) :
    j2 < j + l.length :=
  (strGo_lt_aux l.length l j j2 (by omega) h).2

/-- A successful string scan never moves backwards. -/
theorem strGo_ge (l : List Char) (j j2 : Nat) (h : strGo l j = some j2) :
    j ≤ j2 :=
  (strGo_lt_aux l.length l j j2 (by omega) h).1

/-- A byte read as non-NUL lies inside the list. -/
theorem getC_lt (s : List Char) (i : Nat) (h : getC s i ≠ nulC) : i < s.length := by
  by_contra hle
  exact h (List.getD_eq_default _ _ (by omega))

/-- A successful number scan stays inside the walked suffix. -/
theorem numGo_le : ∀ (l : List Char) (prev : Char) (j : Nat) (dp se ae : Bool)
    (j2 : Nat) (dp2 : Bool), numGo l prev j dp se ae = some (j2, dp2) →
    j2 ≤ j + l.length := by
  intro l
  induction l with
  | nil =>
    intro prev j dp se ae j2 dp2 h
    simp only [numGo] at h
    split_ifs at h
    simp at h
    omega
  | cons c rest ih =>
    intro prev j dp se ae j2 dp2 h
    simp only [numGo] at h
    split_ifs at h <;>
      first
      | (exact le_trans (ih _ _ _ _ _ _ _ h) (by simp only [List.length_cons]; omega))
      | (simp at h
         omega)

/-- The input's first non-whitespace byte is none of the four
delimiter bytes that a value parse rejects with a negative code at the
top level; whenever the top-level parse returns a positive index this
holds, and it rules out the loop re-entries at a rewound position that
a 0 return (terminator hit) would otherwise allow. -/
def degOk (s : List Char) : Prop :=
  getC s (skipWs s 0) ≠ ':' ∧ getC s (skipWs s 0) ≠ ',' ∧
  getC s (skipWs s 0) ≠ '}' ∧ getC s (skipWs s 0) ≠ ']'

set_option maxHeartbeats 4000000 in
/-- Shape of every successful parse: a positive `jsonParseValue` return
appends exactly the pre-order flattening of one value tree; a `-2`/`-3`
return appends nothing; the member loops fail only with `-1` and, on a
positive return, deliver the container's members (back-filling the
container node at `iThis` with its descendant count). -/
theorem parse_shape (s : List Char) (hdeg : degOk s) : ∀ fuel : Nat,
    (∀ i0 ns x ns2, jsonParseValue fuel s i0 ns = (x, ns2) →
      ((0 < x → ∃ v : JVal, ns2 = ns ++ flattenV v) ∧
       ((x = -2 ∨ x = -3) → ns2 = ns))) ∧
    (∀ j0 iThis ns x ns2, jsonParseObj fuel s j0 iThis ns = (x, ns2) →
      ((x < 0 → x = -1) ∧
       (0 < x → iThis < ns.length →
         ∃ ms : JObj,
           (ms = JObj.onil ∧ ns2 = ns ∧ ns.length = iThis + 1) ∨
           (ms ≠ JObj.onil ∧
             ns2 = setN (ns ++ flattenO ms) iThis
               (ns.length + (flattenO ms).length - iThis - 1))))) ∧
    (∀ j0 iThis ns x ns2, jsonParseArr fuel s j0 iThis ns = (x, ns2) →
      ((x < 0 → x = -1) ∧
       (0 < x → iThis < ns.length →
         ∃ vs : JArr,
           (vs = JArr.anil ∧ ns2 = ns ∧ ns.length = iThis + 1) ∨
           (vs ≠ JArr.anil ∧
             ns2 = setN (ns ++ flattenA vs) iThis
               (ns.length + (flattenA vs).length - iThis - 1))))) := by
  intro fuel
  induction fuel with
  | zero =>
    refine ⟨fun i0 ns x ns2 heq => ?_, fun j0 iThis ns x ns2 heq => ?_,
      fun j0 iThis ns x ns2 heq => ?_⟩ <;>
      (simp only [jsonParseValue, jsonParseObj, jsonParseArr, Prod.mk.injEq] at heq
       obtain ⟨hx, hns⟩ := heq
       constructor)
    · intro h0; omega
    · intro h23; omega
    · intro hneg; omega
    · intro h0; omega
    · intro hneg; omega
    · intro h0; omega
  | succ n ih =>
    obtain ⟨ihP, ihQ, ihR⟩ := ih
    refine ⟨fun i0 ns x ns2 heq => ?_, fun j0 iThis ns x ns2 heq => ?_,
      fun j0 iThis ns x ns2 heq => ?_⟩
    · -- jsonParseValue
      simp only [jsonParseValue] at heq
      split_ifs at heq with hnul hobj harr hstr hlitn hlitt hlitf hnum hrb hsb
      · -- terminator: (0, ns)
        rw [Prod.mk.injEq] at heq
        obtain ⟨hx, hns⟩ := heq
        exact ⟨fun h0 => absurd h0 (by omega), fun h23 => absurd h23 (by omega)⟩
      · -- object
        simp only [jsonParseAddNode] at heq
        have hq := ihQ _ _ _ _ _ heq
        constructor
        · intro hx
          have := hq.2 hx (by simp)
          obtain ⟨ms, hms⟩ := this
          rcases hms with ⟨hnil, hns2, hlen⟩ | ⟨hne, hns2⟩
          · subst hnil
            exact ⟨JVal.vobj JObj.onil, by simp [hns2, flattenV, flattenO]⟩
          · refine ⟨JVal.vobj ms, ?_⟩
            rw [hns2]
            have hassoc : (ns ++ [(⟨JSON_OBJECT, false, 0, none⟩ : JsonNode)]) ++ flattenO ms
                = ns ++ (⟨JSON_OBJECT, false, 0, none⟩ : JsonNode) :: flattenO ms := by
              simp
            rw [hassoc, setN_append]
            have hcount : (ns ++ [(⟨JSON_OBJECT, false, 0, none⟩ : JsonNode)]).length
                + (flattenO ms).length - ns.length - 1 = (flattenO ms).length := by
              simp only [List.length_append, List.length_cons, List.length_nil]
              omega
            rw [hcount]
            simp [flattenV]
        · intro h23
          have := hq.1 (by omega)
          omega
      · -- array
        simp only [jsonParseAddNode] at heq
        have hr := ihR _ _ _ _ _ heq
        constructor
        · intro hx
          have := hr.2 hx (by simp)
          obtain ⟨vs, hvs⟩ := this
          rcases hvs with ⟨hnil, hns2, hlen⟩ | ⟨hne, hns2⟩
          · subst hnil
            exact ⟨JVal.varr JArr.anil, by simp [hns2, flattenV, flattenA]⟩
          · refine ⟨JVal.varr vs, ?_⟩
            rw [hns2]
            have hassoc : (ns ++ [(⟨JSON_ARRAY, false, 0, none⟩ : JsonNode)]) ++ flattenA vs
                = ns ++ (⟨JSON_ARRAY, false, 0, none⟩ : JsonNode) :: flattenA vs := by
              simp
            rw [hassoc, setN_append]
            have hcount : (ns ++ [(⟨JSON_ARRAY, false, 0, none⟩ : JsonNode)]).length
                + (flattenA vs).length - ns.length - 1 = (flattenA vs).length := by
              simp only [List.length_append, List.length_cons, List.length_nil]
              omega
            rw [hcount]
            simp [flattenV]
        · intro h23
          have := hr.1 (by omega)
          omega
      · -- string
        rcases hm : strScan s (skipWs s i0 + 1) with _ | j
        · rw [hm] at heq
          rw [Prod.mk.injEq] at heq
          obtain ⟨hx, hns⟩ := heq
          exact ⟨fun h0 => absurd h0 (by omega), fun h23 => absurd h23 (by omega)⟩
        · rw [hm] at heq
          rw [Prod.mk.injEq] at heq
          obtain ⟨hx, hns⟩ := heq
          constructor
          · intro hx0
            refine ⟨JVal.vstr ((s.drop (skipWs s i0)).take (j + 1 - skipWs s i0)), ?_⟩
            have hlt : skipWs s i0 < s.length := getC_lt s _ (by rw [hstr]; decide)
            have hjb := strGo_lt _ _ _ hm
            have hjg := strGo_ge _ _ _ hm
            have hlen : ((s.drop (skipWs s i0)).take (j + 1 - skipWs s i0)).length
                = j + 1 - skipWs s i0 := by
              simp only [List.length_take, List.length_drop]
              simp only [List.length_drop] at hjb
              omega
            rw [← hns]
            simp [jsonParseAddNode, flattenV, hlen]
          · intro h23
            omega
      · -- null
        rw [Prod.mk.injEq] at heq
        obtain ⟨hx, hns⟩ := heq
        exact ⟨fun h0 => ⟨JVal.vnull, by rw [← hns]; simp [jsonParseAddNode, flattenV]⟩,
          fun h23 => absurd h23 (by omega)⟩
      · -- true
        rw [Prod.mk.injEq] at heq
        obtain ⟨hx, hns⟩ := heq
        exact ⟨fun h0 => ⟨JVal.vtrue, by rw [← hns]; simp [jsonParseAddNode, flattenV]⟩,
          fun h23 => absurd h23 (by omega)⟩
      · -- false
        rw [Prod.mk.injEq] at heq
        obtain ⟨hx, hns⟩ := heq
        exact ⟨fun h0 => ⟨JVal.vfalse, by rw [← hns]; simp [jsonParseAddNode, flattenV]⟩,
          fun h23 => absurd h23 (by omega)⟩
      · -- number
        rcases hm : numGo (s.drop (skipWs s i0 + 1)) (getC s (skipWs s i0))
            (skipWs s i0 + 1) false false false with _ | ⟨j, dp⟩
        · rw [hm] at heq
          rw [Prod.mk.injEq] at heq
          obtain ⟨hx, hns⟩ := heq
          exact ⟨fun h0 => absurd h0 (by omega), fun h23 => absurd h23 (by omega)⟩
        · rw [hm] at heq
          rw [Prod.mk.injEq] at heq
          obtain ⟨hx, hns⟩ := heq
          constructor
          · intro hx0
            refine ⟨JVal.vnum ((s.drop (skipWs s i0)).take (j - skipWs s i0)) dp, ?_⟩
            have hlt : skipWs s i0 < s.length := by
              apply getC_lt
              have hnum2 : getC s (skipWs s i0) = '-'
                  ∨ isDigitB (getC s (skipWs s i0)) = true := by
                simpa using hnum
              rcases hnum2 with hminus | hdig
              · rw [hminus]; decide
              · intro hcn
                rw [hcn] at hdig
                exact absurd hdig (by decide)
            have hjb := numGo_le _ _ _ _ _ _ _ _ hm
            have hjg := numGo_ge _ _ _ _ _ _ _ _ hm
            have hlen : ((s.drop (skipWs s i0)).take (j - skipWs s i0)).length
                = j - skipWs s i0 := by
              simp only [List.length_take, List.length_drop]
              simp only [List.length_drop] at hjb
              omega
            rw [← hns]
            cases dp <;> simp [jsonParseAddNode, flattenV, hlen]
          · intro h23
            omega
      · -- '}'
        rw [Prod.mk.injEq] at heq
        obtain ⟨hx, hns⟩ := heq
        exact ⟨fun h0 => absurd h0 (by omega), fun _ => hns.symm ▸ rfl⟩
      · -- ']'
        rw [Prod.mk.injEq] at heq
        obtain ⟨hx, hns⟩ := heq
        exact ⟨fun h0 => absurd h0 (by omega), fun _ => hns.symm ▸ rfl⟩
      · -- syntax error
        rw [Prod.mk.injEq] at heq
        obtain ⟨hx, hns⟩ := heq
        exact ⟨fun h0 => absurd h0 (by omega), fun h23 => absurd h23 (by omega)⟩
    · -- jsonParseObj
      simp only [jsonParseObj] at heq
      rcases hv : jsonParseValue n s (skipWs s j0) ns with ⟨x1, ns1⟩
      rw [hv] at heq
      dsimp only at heq
      rcases hv2 : jsonParseValue n s (skipWs s x1.toNat + 1) ns1 with ⟨x2, ns2a⟩
      rw [hv2] at heq
      dsimp only at heq
      split_ifs at heq with hx1 hemp hkey hcolon hx2 hcomma hbrace
      · -- empty object
        rw [Prod.mk.injEq] at heq
        obtain ⟨hx, hns⟩ := heq
        simp only [Bool.and_eq_true, decide_eq_true_eq] at hemp
        have hns1 : ns1 = ns := (ihP _ _ _ _ hv).2 (Or.inl hemp.1)
        refine ⟨fun hneg => by omega, fun hpos hlt => ?_⟩
        exact ⟨JObj.onil, Or.inl ⟨rfl, by rw [← hns, hns1], by rw [← hns1]; exact hemp.2⟩⟩
      · -- key parse failed
        rw [Prod.mk.injEq] at heq
        obtain ⟨hx, hns⟩ := heq
        exact ⟨fun _ => by omega, fun hpos _ => absurd hpos (by omega)⟩
      · -- key not a string node
        rw [Prod.mk.injEq] at heq
        obtain ⟨hx, hns⟩ := heq
        exact ⟨fun _ => by omega, fun hpos _ => absurd hpos (by omega)⟩
      · -- no colon
        rw [Prod.mk.injEq] at heq
        obtain ⟨hx, hns⟩ := heq
        exact ⟨fun _ => by omega, fun hpos _ => absurd hpos (by omega)⟩
      · -- value parse failed
        rw [Prod.mk.injEq] at heq
        obtain ⟨hx, hns⟩ := heq
        exact ⟨fun _ => by omega, fun hpos _ => absurd hpos (by omega)⟩
      · -- comma: next pair
        have hq := ihQ _ _ _ _ _ heq
        refine ⟨hq.1, fun hpos hlt => ?_⟩
        -- the key parse cannot be an end-of-input return
        have hx1pos : 0 < x1 := by
          rcases (by omega : x1 = 0 ∨ 0 < x1) with h0 | h
          · exfalso
            have hz := ((parse_ret_zero n).1 s (skipWs s j0) ns).1 (by rw [hv, h0])
            rw [hv] at hz
            apply hdeg.1
            have : x1.toNat = 0 := by omega
            rw [this] at hcolon
            simpa using hcolon
          · exact h
        have hx2pos : 0 < x2 := by
          rcases (by omega : x2 = 0 ∨ 0 < x2) with h0 | h
          · exfalso
            apply hdeg.2.1
            have : x2.toNat = 0 := by omega
            rw [this] at hcomma
            exact hcomma
          · exact h
        obtain ⟨k, hk⟩ := (ihP _ _ _ _ hv).1 hx1pos
        obtain ⟨v, hv'⟩ := (ihP _ _ _ _ hv2).1 hx2pos
        have hlt2 : iThis < ns2a.length := by
          rw [hv', hk]
          simp only [List.length_append]
          omega
        obtain ⟨ms', hms'⟩ := hq.2 hpos hlt2
        rcases hms' with ⟨hnil, hns2, hlen⟩ | ⟨hne, hns2⟩
        · exfalso
          rw [hv', hk] at hlen
          have h1 := flattenV_pos k
          have h2 := flattenV_pos v
          simp only [List.length_append] at hlen
          omega
        · refine ⟨JObj.ocons k v ms', Or.inr ⟨by simp, ?_⟩⟩
          rw [hns2, hv', hk]
          have hassoc : ((ns ++ flattenV k) ++ flattenV v) ++ flattenO ms'
              = ns ++ flattenO (JObj.ocons k v ms') := by
            simp [flattenO]
          rw [hassoc]
          congr 1
          simp only [flattenO, List.length_append]
          try omega
      · -- not '}' either: error
        rw [Prod.mk.injEq] at heq
        obtain ⟨hx, hns⟩ := heq
        exact ⟨fun _ => by omega, fun hpos _ => absurd hpos (by omega)⟩
      · -- '}': close object
        rw [Prod.mk.injEq] at heq
        obtain ⟨hx, hns⟩ := heq
        refine ⟨fun hneg => by omega, fun hpos hlt => ?_⟩
        have hx1pos : 0 < x1 := by
          rcases (by omega : x1 = 0 ∨ 0 < x1) with h0 | h
          · exfalso
            have hz := ((parse_ret_zero n).1 s (skipWs s j0) ns).1 (by rw [hv, h0])
            rw [hv] at hz
            apply hdeg.1
            have : x1.toNat = 0 := by omega
            rw [this] at hcolon
            simpa using hcolon
          · exact h
        have hx2pos : 0 < x2 := by
          rcases (by omega : x2 = 0 ∨ 0 < x2) with h0 | h
          · exfalso
            apply hdeg.2.2.1
            have : x2.toNat = 0 := by omega
            rw [this] at hbrace
            simpa using hbrace
          · exact h
        obtain ⟨k, hk⟩ := (ihP _ _ _ _ hv).1 hx1pos
        obtain ⟨v, hv'⟩ := (ihP _ _ _ _ hv2).1 hx2pos
        refine ⟨JObj.ocons k v JObj.onil, Or.inr ⟨by simp, ?_⟩⟩
        rw [← hns, hv', hk]
        have hassoc : (ns ++ flattenV k) ++ flattenV v
            = ns ++ flattenO (JObj.ocons k v JObj.onil) := by
          simp [flattenO, flattenV]
        rw [hassoc]
        congr 1
        simp only [flattenO, List.length_append, List.length_nil]
        try omega
    · -- jsonParseArr
      simp only [jsonParseArr] at heq
      rcases hv : jsonParseValue n s (skipWs s j0) ns with ⟨x1, ns1⟩
      rw [hv] at heq
      dsimp only at heq
      split_ifs at heq with hx1 hemp hcomma hclose
      · -- empty array
        rw [Prod.mk.injEq] at heq
        obtain ⟨hx, hns⟩ := heq
        simp only [Bool.and_eq_true, decide_eq_true_eq] at hemp
        have hns1 : ns1 = ns := (ihP _ _ _ _ hv).2 (Or.inr hemp.1)
        refine ⟨fun hneg => by omega, fun hpos hlt => ?_⟩
        exact ⟨JArr.anil, Or.inl ⟨rfl, by rw [← hns, hns1], by rw [← hns1]; exact hemp.2⟩⟩
      · -- element parse failed
        rw [Prod.mk.injEq] at heq
        obtain ⟨hx, hns⟩ := heq
        exact ⟨fun _ => by omega, fun hpos _ => absurd hpos (by omega)⟩
      · -- comma: next element
        have hr := ihR _ _ _ _ _ heq
        refine ⟨hr.1, fun hpos hlt => ?_⟩
        have hx1pos : 0 < x1 := by
          rcases (by omega : x1 = 0 ∨ 0 < x1) with h0 | h
          · exfalso
            apply hdeg.2.1
            have : x1.toNat = 0 := by omega
            rw [this] at hcomma
            exact hcomma
          · exact h
        obtain ⟨v, hv'⟩ := (ihP _ _ _ _ hv).1 hx1pos
        have hlt2 : iThis < ns1.length := by
          rw [hv']
          simp only [List.length_append]
          omega
        obtain ⟨vs', hvs'⟩ := hr.2 hpos hlt2
        rcases hvs' with ⟨hnil, hns2, hlen⟩ | ⟨hne, hns2⟩
        · exfalso
          rw [hv'] at hlen
          have h1 := flattenV_pos v
          simp only [List.length_append] at hlen
          omega
        · refine ⟨JArr.acons v vs', Or.inr ⟨by simp, ?_⟩⟩
          rw [hns2, hv']
          have hassoc : (ns ++ flattenV v) ++ flattenA vs'
              = ns ++ flattenA (JArr.acons v vs') := by
            simp [flattenA]
          rw [hassoc]
          congr 1
          simp only [flattenA, List.length_append]
          try omega
      · -- not ']' either: error
        rw [Prod.mk.injEq] at heq
        obtain ⟨hx, hns⟩ := heq
        exact ⟨fun _ => by omega, fun hpos _ => absurd hpos (by omega)⟩
      · -- ']': close array
        rw [Prod.mk.injEq] at heq
        obtain ⟨hx, hns⟩ := heq
        refine ⟨fun hneg => by omega, fun hpos hlt => ?_⟩
        have hx1pos : 0 < x1 := by
          rcases (by omega : x1 = 0 ∨ 0 < x1) with h0 | h
          · exfalso
            apply hdeg.2.2.2
            have : x1.toNat = 0 := by omega
            rw [this] at hclose
            simpa using hclose
          · exact h
        obtain ⟨v, hv'⟩ := (ihP _ _ _ _ hv).1 hx1pos
        refine ⟨JArr.acons v JArr.anil, Or.inr ⟨by simp, ?_⟩⟩
        rw [← hns, hv']
        have hassoc : ns ++ flattenV v = ns ++ flattenA (JArr.acons v JArr.anil) := by
          simp [flattenA]
        rw [hassoc]
        congr 1
        simp only [flattenA, List.length_append, List.length_nil]
        try omega

/-- Dropping past a prefix of an append. -/
theorem drop_append_ge (a b : List JsonNode) (i : Nat) (h : a.length ≤ i) :
    (a ++ b).drop i = b.drop (i - a.length) := by
  have h2 : (a ++ b).drop (a.length + (i - a.length)) = b.drop (i - a.length) :=
    List.drop_append (i - a.length)
  rw [← h2]
  congr 1
  omega

mutual

/-- Every index into a flattened value starts the flattening of some
subvalue: the flat node array is a pre-order catalogue of subtrees. -/
theorem flattenV_sub : (v : JVal) → (i : Nat) → i < (flattenV v).length →
    ∃ w rest, (flattenV v).drop i = flattenV w ++ rest
  | v, 0, _ => ⟨v, [], by simp⟩
  | .vnull, i + 1, h => absurd h (by simp [flattenV])
  | .vtrue, i + 1, h => absurd h (by simp [flattenV])
  | .vfalse, i + 1, h => absurd h (by simp [flattenV])
  | .vnum t r, i + 1, h => absurd h (by simp [flattenV])
  | .vstr t, i + 1, h => absurd h (by simp [flattenV])
  | .varr es, i + 1, h => by
    have h2 : i < (flattenA es).length := by
      simpa [flattenV] using h
    obtain ⟨w, rest, hw⟩ := flattenA_sub es i h2
    exact ⟨w, rest, by simpa [flattenV] using hw⟩
  | .vobj ms, i + 1, h => by
    have h2 : i < (flattenO ms).length := by
      simpa [flattenV] using h
    obtain ⟨w, rest, hw⟩ := flattenO_sub ms i h2
    exact ⟨w, rest, by simpa [flattenV] using hw⟩

/-- Every index into flattened array elements starts a subvalue. -/
theorem flattenA_sub : (es : JArr) → (i : Nat) → i < (flattenA es).length →
    ∃ w rest, (flattenA es).drop i = flattenV w ++ rest
  | .anil, i, h => absurd h (by simp [flattenA])
  | .acons v es, i, h => by
    by_cases hlt : i < (flattenV v).length
    · obtain ⟨w, rest, hw⟩ := flattenV_sub v i hlt
      refine ⟨w, rest ++ flattenA es, ?_⟩
      show (flattenV v ++ flattenA es).drop i = _
      rw [List.drop_append_of_le_length (by omega), hw, List.append_assoc]
    · have h2 : i - (flattenV v).length < (flattenA es).length := by
        simp only [flattenA, List.length_append] at h
        omega
      obtain ⟨w, rest, hw⟩ := flattenA_sub es (i - (flattenV v).length) h2
      refine ⟨w, rest, ?_⟩
      show (flattenV v ++ flattenA es).drop i = _
      rw [drop_append_ge _ _ _ (by omega), hw]

/-- Every index into flattened object members starts a subvalue. -/
theorem flattenO_sub : (ms : JObj) → (i : Nat) → i < (flattenO ms).length →
    ∃ w rest, (flattenO ms).drop i = flattenV w ++ rest
  | .onil, i, h => absurd h (by simp [flattenO])
  | .ocons k v ms, i, h => by
    by_cases hlt : i < (flattenV k).length
    · obtain ⟨w, rest, hw⟩ := flattenV_sub k i hlt
      refine ⟨w, (rest ++ flattenV v) ++ flattenO ms, ?_⟩
      simp only [flattenO]
      rw [List.drop_append_of_le_length (by simp; omega),
        List.drop_append_of_le_length (by omega), hw]
      simp [List.append_assoc]
    · by_cases hlt2 : i - (flattenV k).length < (flattenV v).length
      · obtain ⟨w, rest, hw⟩ := flattenV_sub v (i - (flattenV k).length) hlt2
        refine ⟨w, rest ++ flattenO ms, ?_⟩
        simp only [flattenO]
        rw [List.drop_append_of_le_length (by simp; omega),
          drop_append_ge _ _ _ (by omega), hw]
        simp [List.append_assoc]
      · have h2 : i - (flattenV k).length - (flattenV v).length
            < (flattenO ms).length := by
          simp only [flattenO, List.length_append] at h
          omega
        obtain ⟨w, rest, hw⟩ := flattenO_sub ms
          (i - (flattenV k).length - (flattenV v).length) h2
        refine ⟨w, rest, ?_⟩
        simp only [flattenO]
        rw [drop_append_ge _ _ _ (by simp; omega)]
        have hidx : i - (flattenV k ++ flattenV v).length
            = i - (flattenV k).length - (flattenV v).length := by
          simp only [List.length_append]
          omega
        rw [hidx, hw]

end

/-! ### Rendering a flattened value emits its minimal text -/

/-- Reading at a position whose suffix is known. -/
theorem getD_of_drop {α : Type} (a : List α) (i : Nat) (x d : α) (l : List α)
    (h : a.drop i = x :: l) : a[i]?.getD d = x := by
  have h1 : a[i]? = some x := by
    have h2 := List.getElem?_drop a i 0
    rw [h] at h2
    simpa using h2.symm
  simp [h1]

/-- Advancing a drop past a known prefix. -/
theorem drop_of_drop {α : Type} (a : List α) (m : Nat) (u w : List α)
    (h : a.drop m = u ++ w) : a.drop (m + u.length) = w := by
  rw [← List.drop_drop u.length m a, h, List.drop_left]

mutual

/-- Fuel sufficient for `jsonRenderNode` on a flattened value. -/
def rneedV : JVal → Nat
  | .vnull => 1
  | .vtrue => 1
  | .vfalse => 1
  | .vnum _ _ => 1
  | .vstr _ => 1
  | .varr es => 1 + rneedA es
  | .vobj ms => 1 + rneedO ms

/-- Fuel sufficient for the array child loop. -/
def rneedA : JArr → Nat
  | .anil => 0
  | .acons v es => 1 + max (rneedV v) (rneedA es)

/-- Fuel sufficient for the object child loop. -/
def rneedO : JObj → Nat
  | .onil => 0
  | .ocons k v ms => 1 + max (rneedV k) (max (rneedV v) (rneedO ms))

end

mutual

/-- The render fuel need is below twice the node count. -/
theorem rneedV_le : (v : JVal) → rneedV v + 1 ≤ 2 * (flattenV v).length
  | .vnull => by simp [rneedV, flattenV]
  | .vtrue => by simp [rneedV, flattenV]
  | .vfalse => by simp [rneedV, flattenV]
  | .vnum t r => by simp [rneedV, flattenV]
  | .vstr t => by simp [rneedV, flattenV]
  | .varr es => by
    have := rneedA_le es
    simp only [rneedV, flattenV, List.length_cons]
    omega
  | .vobj ms => by
    have := rneedO_le ms
    simp only [rneedV, flattenV, List.length_cons]
    omega

/-- The array loop fuel need is below twice the node count. -/
theorem rneedA_le : (es : JArr) → rneedA es ≤ 2 * (flattenA es).length
  | .anil => by simp [rneedA, flattenA]
  | .acons v es => by
    have h1 := rneedV_le v
    have h2 := rneedA_le es
    simp only [rneedA, flattenA, List.length_append]
    omega

/-- The object loop fuel need is below twice the node count. -/
theorem rneedO_le : (ms : JObj) → rneedO ms ≤ 2 * (flattenO ms).length
  | .onil => by simp [rneedO, flattenO]
  | .ocons k v ms => by
    have h1 := rneedV_le k
    have h2 := rneedV_le v
    have h3 := rneedO_le ms
    simp only [rneedO, flattenO, List.length_append]
    omega

end


/-- The text the array child loop emits for the remaining elements: a
leading comma once an element has already been rendered (`0 < j`). -/
def emitASep (j : Nat) : JArr → List Char
  | .anil => []
  | .acons v es => if 0 < j then ',' :: emitA (.acons v es) else emitA (.acons v es)

/-- The text the object child loop emits for the remaining pairs. -/
def emitOSep (j : Nat) : JObj → List Char
  | .onil => []
  | .ocons k v ms => if 0 < j then ',' :: emitO (.ocons k v ms) else emitO (.ocons k v ms)

/-- At the start of a container (`j = 0`) the loop text is the plain
member text. -/
theorem emitASep_zero (es : JArr) : emitASep 0 es = emitA es := by
  cases es <;> simp [emitASep, emitA]

/-- At the start of an object the loop text is the plain member text. -/
theorem emitOSep_zero (ms : JObj) : emitOSep 0 ms = emitO ms := by
  cases ms <;> simp [emitOSep, emitO]

mutual

/-- Rendering the flattening of `v` (sitting at index `i` of the node
array, with anything after it) consumes exactly its node count and
appends exactly its minimal text. -/
theorem render_emitV : (v : JVal) → ∀ (fuel : Nat) (a : List JsonNode) (i : Nat)
    (p : Json) (rest : List JsonNode), rneedV v ≤ fuel →
    a.drop i = flattenV v ++ rest → p.oom = false →
    ∃ p2, jsonRenderNode fuel a i p = ((flattenV v).length, p2) ∧
      p2.zBuf = p.zBuf ++ emitV v ∧ p2.oom = false
  | .vnull, fuel, a, i, p, rest, hf, hdrop, hoom => by
    cases fuel with
    | zero => exact absurd hf (by simp [rneedV])
    | succ fuel =>
      have hget : a[i]?.getD defNode = (⟨JSON_NULL, false, 0, none⟩ : JsonNode) :=
        getD_of_drop _ _ _ _ _ (by simpa [flattenV] using hdrop)
      have har := jsonAppendRaw_ok p (charsOf "null") 4 hoom
      have hres : jsonRenderNode (fuel + 1) a i p
          = (1, jsonAppendRaw p (charsOf "null") 4) := by
        simp [jsonRenderNode, hget]
      refine ⟨jsonAppendRaw p (charsOf "null") 4, ?_, ?_, har.2⟩
      · rw [hres]
        simp [flattenV]
      · rw [har.1]
        have ht : (charsOf "null").take 4 = charsOf "null" := by decide
        rw [ht]
        simp [emitV]
  | .vtrue, fuel, a, i, p, rest, hf, hdrop, hoom => by
    cases fuel with
    | zero => exact absurd hf (by simp [rneedV])
    | succ fuel =>
      have hget : a[i]?.getD defNode = (⟨JSON_TRUE, false, 0, none⟩ : JsonNode) :=
        getD_of_drop _ _ _ _ _ (by simpa [flattenV] using hdrop)
      have har := jsonAppendRaw_ok p (charsOf "true") 4 hoom
      have hres : jsonRenderNode (fuel + 1) a i p
          = (1, jsonAppendRaw p (charsOf "true") 4) := by
        simp [jsonRenderNode, hget, JSON_NULL, JSON_TRUE]
      refine ⟨jsonAppendRaw p (charsOf "true") 4, ?_, ?_, har.2⟩
      · rw [hres]
        simp [flattenV]
      · rw [har.1]
        have ht : (charsOf "true").take 4 = charsOf "true" := by decide
        rw [ht]
        simp [emitV]
  | .vfalse, fuel, a, i, p, rest, hf, hdrop, hoom => by
    cases fuel with
    | zero => exact absurd hf (by simp [rneedV])
    | succ fuel =>
      have hget : a[i]?.getD defNode = (⟨JSON_FALSE, false, 0, none⟩ : JsonNode) :=
        getD_of_drop _ _ _ _ _ (by simpa [flattenV] using hdrop)
      have har := jsonAppendRaw_ok p (charsOf "false") 5 hoom
      have hres : jsonRenderNode (fuel + 1) a i p
          = (1, jsonAppendRaw p (charsOf "false") 5) := by
        simp [jsonRenderNode, hget, JSON_NULL, JSON_TRUE, JSON_FALSE]
      refine ⟨jsonAppendRaw p (charsOf "false") 5, ?_, ?_, har.2⟩
      · rw [hres]
        simp [flattenV]
      · rw [har.1]
        have ht : (charsOf "false").take 5 = charsOf "false" := by decide
        rw [ht]
        simp [emitV]
  | .vnum t r, fuel, a, i, p, rest, hf, hdrop, hoom => by
    cases fuel with
    | zero => exact absurd hf (by simp [rneedV])
    | succ fuel =>
      have hget : a[i]?.getD defNode
          = (⟨if r then JSON_REAL else JSON_INT, false, t.length, some t⟩ : JsonNode) :=
        getD_of_drop _ _ _ _ _ (by simpa [flattenV] using hdrop)
      have har := jsonAppendRaw_ok p t t.length hoom
      have hres : jsonRenderNode (fuel + 1) a i p
          = (1, jsonAppendRaw p t t.length) := by
        cases r <;>
          simp [jsonRenderNode, hget, JSON_NULL, JSON_TRUE, JSON_FALSE,
            JSON_STRING, JSON_REAL, JSON_INT]
      refine ⟨jsonAppendRaw p t t.length, ?_, ?_, har.2⟩
      · rw [hres]
        simp [flattenV]
      · rw [har.1, List.take_length]
        simp [emitV]
  | .vstr t, fuel, a, i, p, rest, hf, hdrop, hoom => by
    cases fuel with
    | zero => exact absurd hf (by simp [rneedV])
    | succ fuel =>
      have hget : a[i]?.getD defNode
          = (⟨JSON_STRING, false, t.length, some t⟩ : JsonNode) :=
        getD_of_drop _ _ _ _ _ (by simpa [flattenV] using hdrop)
      have har := jsonAppendRaw_ok p t t.length hoom
      have hres : jsonRenderNode (fuel + 1) a i p
          = (1, jsonAppendRaw p t t.length) := by
        simp [jsonRenderNode, hget, JSON_NULL, JSON_TRUE, JSON_FALSE, JSON_STRING]
      refine ⟨jsonAppendRaw p t t.length, ?_, ?_, har.2⟩
      · rw [hres]
        simp [flattenV]
      · rw [har.1, List.take_length]
        simp [emitV]
  | .varr es, fuel, a, i, p, rest, hf, hdrop, hoom => by
    cases fuel with
    | zero => exact absurd hf (by simp [rneedV])
    | succ fuel =>
      have hfa : rneedA es ≤ fuel := by
        have := hf
        simp only [rneedV] at this
        omega
      have hget : a[i]?.getD defNode
          = (⟨JSON_ARRAY, false, (flattenA es).length, none⟩ : JsonNode) :=
        getD_of_drop _ _ _ _ _ (by simpa [flattenV] using hdrop)
      have hdrop2 : a.drop (i + 1) = flattenA es ++ rest := by
        have h2 := drop_of_drop a i [(⟨JSON_ARRAY, false, (flattenA es).length, none⟩ :
          JsonNode)] (flattenA es ++ rest) (by simpa [flattenV] using hdrop)
        simpa using h2
      have hchar := jsonAppendChar_ok p '[' hoom
      obtain ⟨p2, hloop, hbuf2, ho2⟩ := render_emitA es fuel a i (jsonAppendChar p '[')
        0 rest hfa (by simpa using hdrop2) hchar.2
      simp only [Nat.zero_add] at hloop
      have hchar2 := jsonAppendChar_ok p2 ']' ho2
      have hres : jsonRenderNode (fuel + 1) a i p
          = ((flattenA es).length + 1, jsonAppendChar p2 ']') := by
        simp [jsonRenderNode, hget, JSON_NULL, JSON_TRUE, JSON_FALSE,
          JSON_STRING, JSON_REAL, JSON_INT, JSON_ARRAY, JSON_OBJECT, hloop]
      refine ⟨jsonAppendChar p2 ']', ?_, ?_, hchar2.2⟩
      · rw [hres]
        simp [flattenV]
      · rw [hchar2.1, hbuf2, emitASep_zero, hchar.1]
        simp [emitV]
  | .vobj ms, fuel, a, i, p, rest, hf, hdrop, hoom => by
    cases fuel with
    | zero => exact absurd hf (by simp [rneedV])
    | succ fuel =>
      have hfo : rneedO ms ≤ fuel := by
        have := hf
        simp only [rneedV] at this
        omega
      have hget : a[i]?.getD defNode
          = (⟨JSON_OBJECT, false, (flattenO ms).length, none⟩ : JsonNode) :=
        getD_of_drop _ _ _ _ _ (by simpa [flattenV] using hdrop)
      have hdrop2 : a.drop (i + 1) = flattenO ms ++ rest := by
        have h2 := drop_of_drop a i [(⟨JSON_OBJECT, false, (flattenO ms).length, none⟩ :
          JsonNode)] (flattenO ms ++ rest) (by simpa [flattenV] using hdrop)
        simpa using h2
      have hchar := jsonAppendChar_ok p '{' hoom
      obtain ⟨p2, hloop, hbuf2, ho2⟩ := render_emitO ms fuel a i (jsonAppendChar p '{')
        0 rest hfo (by simpa using hdrop2) hchar.2
      simp only [Nat.zero_add] at hloop
      have hchar2 := jsonAppendChar_ok p2 '}' ho2
      have hres : jsonRenderNode (fuel + 1) a i p
          = ((flattenO ms).length + 1, jsonAppendChar p2 '}') := by
        simp [jsonRenderNode, hget, JSON_NULL, JSON_TRUE, JSON_FALSE,
          JSON_STRING, JSON_REAL, JSON_INT, JSON_ARRAY, JSON_OBJECT, hloop]
      refine ⟨jsonAppendChar p2 '}', ?_, ?_, hchar2.2⟩
      · rw [hres]
        simp [flattenV]
      · rw [hchar2.1, hbuf2, emitOSep_zero, hchar.1]
        simp [emitV]

/-- The array child loop renders the remaining elements, comma
separated. -/
theorem render_emitA : (es : JArr) → ∀ (fuel : Nat) (a : List JsonNode) (i : Nat)
    (p : Json) (j : Nat) (rest : List JsonNode), rneedA es ≤ fuel →
    a.drop (i + j + 1) = flattenA es ++ rest → p.oom = false →
    ∃ p2, jsonRenderArrLoop fuel a i p j (j + (flattenA es).length)
        = (j + (flattenA es).length, p2) ∧
      p2.zBuf = p.zBuf ++ emitASep j es ∧ p2.oom = false
  | .anil, fuel, a, i, p, j, rest, hf, hdrop, hoom => by
    refine ⟨p, ?_, by simp [emitASep], hoom⟩
    cases fuel with
    | zero => simp [jsonRenderArrLoop, flattenA]
    | succ n => simp [jsonRenderArrLoop, flattenA]
  | .acons v es, fuel, a, i, p, j, rest, hf, hdrop, hoom => by
    cases fuel with
    | zero =>
      exact absurd hf (by simp only [rneedA]; omega)
    | succ fuel =>
      have hf2 : 1 + max (rneedV v) (rneedA es) ≤ fuel + 1 := by
        simpa [rneedA] using hf
      have hfv : rneedV v ≤ fuel := by omega
      have hfa : rneedA es ≤ fuel := by omega
      have hdropv : a.drop (i + j + 1) = flattenV v ++ (flattenA es ++ rest) := by
        rw [hdrop]
        simp [flattenA]
      have key : ∀ (q : Json), q.oom = false →
          ∃ p3, (match jsonRenderNode fuel a (i + j + 1) q with
            | (k, p2) => jsonRenderArrLoop fuel a i p2 (j + k)
                (j + (flattenA (JArr.acons v es)).length))
            = (j + (flattenA (JArr.acons v es)).length, p3) ∧
          p3.zBuf = q.zBuf ++ (emitV v
            ++ emitASep (j + (flattenV v).length) es) ∧
          p3.oom = false := by
        intro q hq
        obtain ⟨p2, hrend, hbuf2, ho2⟩ := render_emitV v fuel a (i + j + 1) q
          (flattenA es ++ rest) hfv hdropv hq
        have hdrop3 : a.drop (i + (j + (flattenV v).length) + 1)
            = flattenA es ++ rest := by
          have h2 := drop_of_drop a (i + j + 1) (flattenV v) (flattenA es ++ rest) hdropv
          have hidx : i + (j + (flattenV v).length) + 1
              = (i + j + 1) + (flattenV v).length := by omega
          rw [hidx]
          exact h2
        obtain ⟨p3, hloop, hbuf3, ho3⟩ := render_emitA es fuel a i p2
          (j + (flattenV v).length) rest hfa hdrop3 ho2
        have hn : j + (flattenA (JArr.acons v es)).length
            = (j + (flattenV v).length) + (flattenA es).length := by
          simp only [flattenA, List.length_append]
          omega
        refine ⟨p3, ?_, ?_, ho3⟩
        · rw [hrend]
          dsimp only
          rw [hn, hloop]
        · rw [hbuf3, hbuf2]
          simp [List.append_assoc]
      have hlt : j < j + (flattenA (JArr.acons v es)).length := by
        have := flattenV_pos v
        simp only [flattenA, List.length_append]
        omega
      have hsep : ∀ q3 : Json,
          q3.zBuf = p.zBuf ++ ((if 0 < j then [','] else []) ++ (emitV v
            ++ emitASep (j + (flattenV v).length) es)) →
          q3.zBuf = p.zBuf ++ emitASep j (JArr.acons v es) := by
        intro q3 hq3
        rw [hq3]
        have hjv : 0 < j + (flattenV v).length := by
          have := flattenV_pos v
          omega
        cases es with
        | anil =>
          by_cases hj : 0 < j <;>
            simp [emitASep, emitA, hj]
        | acons w es2 =>
          by_cases hj : 0 < j <;>
            simp [emitASep, emitA, hj, hjv, List.append_assoc]
      by_cases hj : 0 < j
      · have hcomma := jsonAppendChar_ok p ',' hoom
        obtain ⟨p3, hmain, hbuf, ho⟩ := key (jsonAppendChar p ',') hcomma.2
        refine ⟨p3, ?_, ?_, ho⟩
        · simp only [jsonRenderArrLoop]
          rw [if_pos hlt, if_pos hj]
          exact hmain
        · refine hsep p3 ?_
          rw [hbuf, hcomma.1]
          simp [hj, List.append_assoc]
      · obtain ⟨p3, hmain, hbuf, ho⟩ := key p hoom
        refine ⟨p3, ?_, ?_, ho⟩
        · simp only [jsonRenderArrLoop]
          rw [if_pos hlt, if_neg hj]
          exact hmain
        · refine hsep p3 ?_
          rw [hbuf]
          simp [hj]

/-- The object child loop renders the remaining key/value pairs. -/
theorem render_emitO : (ms : JObj) → ∀ (fuel : Nat) (a : List JsonNode) (i : Nat)
    (p : Json) (j : Nat) (rest : List JsonNode), rneedO ms ≤ fuel →
    a.drop (i + j + 1) = flattenO ms ++ rest → p.oom = false →
    ∃ p2, jsonRenderObjLoop fuel a i p j (j + (flattenO ms).length)
        = (j + (flattenO ms).length, p2) ∧
      p2.zBuf = p.zBuf ++ emitOSep j ms ∧ p2.oom = false
  | .onil, fuel, a, i, p, j, rest, hf, hdrop, hoom => by
    refine ⟨p, ?_, by simp [emitOSep], hoom⟩
    cases fuel with
    | zero => simp [jsonRenderObjLoop, flattenO]
    | succ n => simp [jsonRenderObjLoop, flattenO]
  | .ocons k v ms, fuel, a, i, p, j, rest, hf, hdrop, hoom => by
    cases fuel with
    | zero =>
      exact absurd hf (by simp only [rneedO]; omega)
    | succ fuel =>
      have hf2 : 1 + max (rneedV k) (max (rneedV v) (rneedO ms)) ≤ fuel + 1 := by
        simpa [rneedO] using hf
      have hfk : rneedV k ≤ fuel := by omega
      have hfv : rneedV v ≤ fuel := by omega
      have hfo : rneedO ms ≤ fuel := by omega
      have hdropk : a.drop (i + j + 1)
          = flattenV k ++ (flattenV v ++ (flattenO ms ++ rest)) := by
        rw [hdrop]
        simp [flattenO]
      have key : ∀ (q : Json), q.oom = false →
          ∃ p4, (match jsonRenderNode fuel a (i + j + 1) q with
            | (k1, p2) =>
              match jsonRenderNode fuel a (i + (j + k1) + 1) (jsonAppendChar p2 ':') with
              | (k2, p3) => jsonRenderObjLoop fuel a i p3 (j + k1 + k2)
                  (j + (flattenO (JObj.ocons k v ms)).length))
            = (j + (flattenO (JObj.ocons k v ms)).length, p4) ∧
          p4.zBuf = q.zBuf ++ (emitV k ++ ':' :: emitV v
            ++ emitOSep (j + (flattenV k).length + (flattenV v).length) ms) ∧
          p4.oom = false := by
        intro q hq
        obtain ⟨p2, hrendk, hbufk, ho2⟩ := render_emitV k fuel a (i + j + 1) q
          (flattenV v ++ (flattenO ms ++ rest)) hfk hdropk hq
        have hcolon := jsonAppendChar_ok p2 ':' ho2
        have hdropv : a.drop (i + (j + (flattenV k).length) + 1)
            = flattenV v ++ (flattenO ms ++ rest) := by
          have h2 := drop_of_drop a (i + j + 1) (flattenV k)
            (flattenV v ++ (flattenO ms ++ rest)) hdropk
          have hidx : i + (j + (flattenV k).length) + 1
              = (i + j + 1) + (flattenV k).length := by omega
          rw [hidx]
          exact h2
        obtain ⟨p3, hrendv, hbufv, ho3⟩ := render_emitV v fuel a
          (i + (j + (flattenV k).length) + 1) (jsonAppendChar p2 ':')
          (flattenO ms ++ rest) hfv hdropv hcolon.2
        have hdropo : a.drop (i + (j + (flattenV k).length + (flattenV v).length) + 1)
            = flattenO ms ++ rest := by
          have h2 := drop_of_drop a (i + (j + (flattenV k).length) + 1) (flattenV v)
            (flattenO ms ++ rest) hdropv
          have hidx : i + (j + (flattenV k).length + (flattenV v).length) + 1
              = (i + (j + (flattenV k).length) + 1) + (flattenV v).length := by omega
          rw [hidx]
          exact h2
        obtain ⟨p4, hloop, hbufo, ho4⟩ := render_emitO ms fuel a i p3
          (j + (flattenV k).length + (flattenV v).length) rest hfo hdropo ho3
        have hn : j + (flattenO (JObj.ocons k v ms)).length
            = (j + (flattenV k).length + (flattenV v).length)
              + (flattenO ms).length := by
          simp only [flattenO, List.length_append]
          omega
        refine ⟨p4, ?_, ?_, ho4⟩
        · rw [hrendk]
          dsimp only
          rw [hrendv]
          dsimp only
          rw [hn, hloop]
        · rw [hbufo, hbufv, hcolon.1, hbufk]
          simp [List.append_assoc]
      have hlt : j < j + (flattenO (JObj.ocons k v ms)).length := by
        have := flattenV_pos k
        simp only [flattenO, List.length_append]
        omega
      have hsep : ∀ q4 : Json,
          q4.zBuf = p.zBuf ++ ((if 0 < j then [','] else []) ++ (emitV k ++ ':' :: emitV v
            ++ emitOSep (j + (flattenV k).length + (flattenV v).length) ms)) →
          q4.zBuf = p.zBuf ++ emitOSep j (JObj.ocons k v ms) := by
        intro q4 hq4
        rw [hq4]
        have hjv : 0 < j + (flattenV k).length + (flattenV v).length := by
          have := flattenV_pos k
          omega
        cases ms with
        | onil =>
          by_cases hj : 0 < j <;>
            simp [emitOSep, emitO, hj]
        | ocons k2 v2 ms2 =>
          by_cases hj : 0 < j <;>
            simp [emitOSep, emitO, hj, hjv, List.append_assoc]
      by_cases hj : 0 < j
      · have hcomma := jsonAppendChar_ok p ',' hoom
        obtain ⟨p4, hmain, hbuf, ho⟩ := key (jsonAppendChar p ',') hcomma.2
        refine ⟨p4, ?_, ?_, ho⟩
        · simp only [jsonRenderObjLoop]
          rw [if_pos hlt, if_pos hj]
          exact hmain
        · refine hsep p4 ?_
          rw [hbuf, hcomma.1]
          simp [hj, List.append_assoc]
      · obtain ⟨p4, hmain, hbuf, ho⟩ := key p hoom
        refine ⟨p4, ?_, ?_, ho⟩
        · simp only [jsonRenderObjLoop]
          rw [if_pos hlt, if_neg hj]
          exact hmain
        · refine hsep p4 ?_
          rw [hbuf]
          simp [hj]

end

/-- A positive `jsonParseValue` return means the first non-whitespace
byte was not one of the structural bytes `:`, `,`, `}`, `]` (those
make the value parser return `-1`, `-2` or `-3`). -/
theorem parseValue_pos_first (fuel : Nat) (s : List Char) (i : Nat)
    (ns : List JsonNode) (x : Int) (ns2 : List JsonNode)
    (h : jsonParseValue fuel s i ns = (x, ns2)) (hx : 0 < x) :
    getC s (skipWs s i) ≠ ':' ∧ getC s (skipWs s i) ≠ ',' ∧
    getC s (skipWs s i) ≠ '}' ∧ getC s (skipWs s i) ≠ ']' := by
  cases fuel with
  | zero =>
    simp only [jsonParseValue, Prod.mk.injEq] at h
    obtain ⟨h1, -⟩ := h
    omega
  | succ n =>
    refine ⟨?_, ?_, ?_, ?_⟩ <;> intro hch <;>
      (simp only [jsonParseValue] at h
       rw [hch] at h
       simp [nulC, isDigitB, Prod.mk.injEq] at h
       omega)

/-- Every successful whole-document parse yields either no nodes at
all or the pre-order flattening of a single value tree. -/
theorem parse_root (s : List Char) (ns : List JsonNode)
    (h : jsonParse s = (true, ns)) :
    ns = [] ∨ ∃ v : JVal, ns = flattenV v := by
  rcases hpv : jsonParseValue (2 * s.length + 4) s 0 [] with ⟨x, ns1⟩
  have hunf : jsonParse s = (if 0 < x then
      (if getC s (skipWs s x.toNat) ≠ nulC then (false, []) else (true, ns1))
      else if x < 0 then (false, []) else (true, ns1)) := by
    unfold jsonParse
    rw [hpv]
  by_cases hx : 0 < x
  · have hdeg : degOk s := parseValue_pos_first _ s 0 _ _ _ hpv hx
    have hP := (((parse_shape s hdeg (2 * s.length + 4)).1) 0 [] x ns1 hpv).1 hx
    obtain ⟨v, hv⟩ := hP
    rw [hunf, if_pos hx] at h
    split_ifs at h with htrail
    · simp at h
    · right
      refine ⟨v, ?_⟩
      have hns : ns1 = ns := congrArg Prod.snd h
      rw [← hns]
      simpa using hv
  · by_cases hneg : x < 0
    · rw [hunf, if_neg hx, if_pos hneg] at h
      simp at h
    · have hx0 : x = 0 := by omega
      have hz := ((parse_ret_zero (2 * s.length + 4)).1 s 0 []).1 (by rw [hpv, hx0])
      rw [hpv] at hz
      left
      rw [hunf, if_neg hx, if_neg hneg] at h
      have hns : ns1 = ns := congrArg Prod.snd h
      rw [← hns]
      exact hz.2

/-- A container head node of a subtree flattening carries exactly the
number of its descendant slots in its count field. -/
theorem flattenV_head_container (w : JVal) (hd : JsonNode) (tl : List JsonNode)
    (hw : flattenV w = hd :: tl)
    (hc : hd.eType = JSON_ARRAY ∨ hd.eType = JSON_OBJECT) :
    hd.n = tl.length := by
  cases w with
  | vnull =>
    simp only [flattenV, List.cons.injEq] at hw
    obtain ⟨h1, -⟩ := hw
    rw [← h1] at hc
    simp [JSON_NULL, JSON_ARRAY, JSON_OBJECT] at hc
  | vtrue =>
    simp only [flattenV, List.cons.injEq] at hw
    obtain ⟨h1, -⟩ := hw
    rw [← h1] at hc
    simp [JSON_TRUE, JSON_ARRAY, JSON_OBJECT] at hc
  | vfalse =>
    simp only [flattenV, List.cons.injEq] at hw
    obtain ⟨h1, -⟩ := hw
    rw [← h1] at hc
    simp [JSON_FALSE, JSON_ARRAY, JSON_OBJECT] at hc
  | vnum t r =>
    simp only [flattenV, List.cons.injEq] at hw
    obtain ⟨h1, -⟩ := hw
    rw [← h1] at hc
    cases r <;> simp [JSON_REAL, JSON_INT, JSON_ARRAY, JSON_OBJECT] at hc
  | vstr t =>
    simp only [flattenV, List.cons.injEq] at hw
    obtain ⟨h1, -⟩ := hw
    rw [← h1] at hc
    simp [JSON_STRING, JSON_ARRAY, JSON_OBJECT] at hc
  | varr es =>
    simp only [flattenV, List.cons.injEq] at hw
    obtain ⟨h1, h2⟩ := hw
    rw [← h1, ← h2]
  | vobj ms =>
    simp only [flattenV, List.cons.injEq] at hw
    obtain ⟨h1, h2⟩ := hw
    rw [← h1, ← h2]

/-- A non-container head node of a subtree flattening has no
descendants: the subtree is that single node. -/
theorem flattenV_head_scalar (w : JVal) (hd : JsonNode) (tl : List JsonNode)
    (hw : flattenV w = hd :: tl)
    (hc : hd.eType ≠ JSON_ARRAY ∧ hd.eType ≠ JSON_OBJECT) :
    tl = [] := by
  cases w with
  | vnull =>
    simp only [flattenV, List.cons.injEq] at hw
    exact hw.2.symm
  | vtrue =>
    simp only [flattenV, List.cons.injEq] at hw
    exact hw.2.symm
  | vfalse =>
    simp only [flattenV, List.cons.injEq] at hw
    exact hw.2.symm
  | vnum t r =>
    simp only [flattenV, List.cons.injEq] at hw
    exact hw.2.symm
  | vstr t =>
    simp only [flattenV, List.cons.injEq] at hw
    exact hw.2.symm
  | varr es =>
    simp only [flattenV, List.cons.injEq] at hw
    obtain ⟨h1, -⟩ := hw
    rw [← h1] at hc
    simp [JSON_ARRAY] at hc
  | vobj ms =>
    simp only [flattenV, List.cons.injEq] at hw
    obtain ⟨h1, -⟩ := hw
    rw [← h1] at hc
    simp [JSON_OBJECT] at hc

/-- Claim C2: in the node array of every successful parse, a container
node at index `i` heads a contiguous subtree slice whose length minus
one (the container node itself) is exactly the node's count field `n`,
and rendering the node at `i` returns exactly `n + 1` consumed slots,
so a caller can skip the whole subtree using only the count. -/
theorem C2_container_size (s : List Char) (ns : List JsonNode)
    (h : jsonParse s = (true, ns)) (i : Nat) (hi : i < ns.length)
    (hc : (ns.getD i defNode).eType = JSON_ARRAY ∨
      (ns.getD i defNode).eType = JSON_OBJECT) :
    ∃ (w : JVal) (rest : List JsonNode), ns.drop i = flattenV w ++ rest ∧
      (flattenV w).length = (ns.getD i defNode).n + 1 ∧
      ∀ p : Json, p.oom = false →
        (jsonRenderNode (2 * ns.length + 4) ns i p).1
          = (ns.getD i defNode).n + 1 := by
  rcases parse_root s ns h with hnil | ⟨v, hv⟩
  · subst hnil
    simp at hi
  · subst hv
    obtain ⟨w, rest, hdrop⟩ := flattenV_sub v i hi
    rcases hfw : flattenV w with _ | ⟨hd, tl⟩
    · have hpos := flattenV_pos w
      rw [hfw] at hpos
      simp at hpos
    · have hgetD : (flattenV v).getD i defNode = hd := by
        rw [List.getD_eq_getElem?_getD]
        refine getD_of_drop _ _ _ _ (tl ++ rest) ?_
        rw [hdrop, hfw]
        simp
      rw [hgetD] at hc ⊢
      have hn := flattenV_head_container w hd tl hfw hc
      refine ⟨w, rest, hdrop, ?_, ?_⟩
      · rw [hfw]
        simp [hn]
      · intro p hp
        have hlen : (flattenV w).length ≤ (flattenV v).length := by
          have hl := congrArg List.length hdrop
          simp only [List.length_drop, List.length_append] at hl
          omega
        have hfuel : rneedV w ≤ 2 * (flattenV v).length + 4 := by
          have h1 := rneedV_le w
          omega
        obtain ⟨p2, hres, -, -⟩ := render_emitV w _ (flattenV v) i p rest hfuel hdrop hp
        rw [hres]
        rw [hfw]
        simp [hn]

/-- Witness for `C2_container_size` at the document `[1]`. -/
theorem C2_container_size_witness :
    ∃ (w : JVal) (rest : List JsonNode),
      (jsonParse (charsOf "[1]")).2.drop 0 = flattenV w ++ rest ∧
      (flattenV w).length = ((jsonParse (charsOf "[1]")).2.getD 0 defNode).n + 1 ∧
      ∀ p : Json, p.oom = false →
        (jsonRenderNode (2 * (jsonParse (charsOf "[1]")).2.length + 4)
          (jsonParse (charsOf "[1]")).2 0 p).1
          = ((jsonParse (charsOf "[1]")).2.getD 0 defNode).n + 1 :=
  C2_container_size (charsOf "[1]") (jsonParse (charsOf "[1]")).2 (by decide)
    0 (by decide) (by decide)

/-- Claim C10: in every successful parse with at least one node, node 0
is the root of the whole document: a container root's count field is
the total node count minus one, a scalar root means the node count is
exactly one, and rendering node 0 consumes the entire node array. -/
theorem C10_root_node (s : List Char) (ns : List JsonNode)
    (h : jsonParse s = (true, ns)) (hne : ns ≠ []) :
    (((ns.getD 0 defNode).eType = JSON_ARRAY ∨
        (ns.getD 0 defNode).eType = JSON_OBJECT) →
      (ns.getD 0 defNode).n = ns.length - 1) ∧
    (((ns.getD 0 defNode).eType ≠ JSON_ARRAY ∧
        (ns.getD 0 defNode).eType ≠ JSON_OBJECT) →
      ns.length = 1) ∧
    ∀ p : Json, p.oom = false →
      (jsonRenderNode (2 * ns.length + 4) ns 0 p).1 = ns.length := by
  rcases parse_root s ns h with hnil | ⟨v, hv⟩
  · exact absurd hnil hne
  · subst hv
    rcases hfw : flattenV v with _ | ⟨hd, tl⟩
    · have hpos := flattenV_pos v
      rw [hfw] at hpos
      simp at hpos
    · refine ⟨?_, ?_, ?_⟩
      · intro hc
        simp only [List.getD_cons_zero] at hc ⊢
        have hn := flattenV_head_container v hd tl hfw hc
        simp [hn]
      · intro hc
        simp only [List.getD_cons_zero] at hc
        have htl := flattenV_head_scalar v hd tl hfw hc
        rw [htl]
        simp
      · intro p hp
        rw [← hfw]
        have hfuel : rneedV v ≤ 2 * (flattenV v).length + 4 := by
          have h1 := rneedV_le v
          omega
        obtain ⟨p2, hres, -, -⟩ := render_emitV v _ (flattenV v) 0 p [] hfuel
          (by simp) hp
        rw [hres]

/-- Witness for `C10_root_node` at the document `true`. -/
theorem C10_root_node_witness :
    ((((jsonParse (charsOf "true")).2.getD 0 defNode).eType = JSON_ARRAY ∨
        ((jsonParse (charsOf "true")).2.getD 0 defNode).eType = JSON_OBJECT) →
      ((jsonParse (charsOf "true")).2.getD 0 defNode).n
        = (jsonParse (charsOf "true")).2.length - 1) ∧
    ((((jsonParse (charsOf "true")).2.getD 0 defNode).eType ≠ JSON_ARRAY ∧
        ((jsonParse (charsOf "true")).2.getD 0 defNode).eType ≠ JSON_OBJECT) →
      (jsonParse (charsOf "true")).2.length = 1) ∧
    ∀ p : Json, p.oom = false →
      (jsonRenderNode (2 * (jsonParse (charsOf "true")).2.length + 4)
        (jsonParse (charsOf "true")).2 0 p).1
        = (jsonParse (charsOf "true")).2.length :=
  C10_root_node (charsOf "true") (jsonParse (charsOf "true")).2 (by decide) (by decide)

mutual

/-- Every node the flattening of a value tree contains is non-raw. -/
theorem flattenV_bRaw : (v : JVal) → ∀ nd ∈ flattenV v, nd.bRaw = false
  | .vnull, nd, hnd => by
    simp only [flattenV, List.mem_singleton] at hnd
    rw [hnd]
  | .vtrue, nd, hnd => by
    simp only [flattenV, List.mem_singleton] at hnd
    rw [hnd]
  | .vfalse, nd, hnd => by
    simp only [flattenV, List.mem_singleton] at hnd
    rw [hnd]
  | .vnum t r, nd, hnd => by
    simp only [flattenV, List.mem_singleton] at hnd
    rw [hnd]
  | .vstr t, nd, hnd => by
    simp only [flattenV, List.mem_singleton] at hnd
    rw [hnd]
  | .varr es, nd, hnd => by
    simp only [flattenV, List.mem_cons] at hnd
    rcases hnd with h1 | h2
    · rw [h1]
    · exact flattenA_bRaw es nd h2
  | .vobj ms, nd, hnd => by
    simp only [flattenV, List.mem_cons] at hnd
    rcases hnd with h1 | h2
    · rw [h1]
    · exact flattenO_bRaw ms nd h2

/-- Every node in the flattening of array elements is non-raw. -/
theorem flattenA_bRaw : (es : JArr) → ∀ nd ∈ flattenA es, nd.bRaw = false
  | .anil, nd, hnd => by simp [flattenA] at hnd
  | .acons v es, nd, hnd => by
    simp only [flattenA, List.mem_append] at hnd
    rcases hnd with h1 | h2
    · exact flattenV_bRaw v nd h1
    · exact flattenA_bRaw es nd h2

/-- Every node in the flattening of object members is non-raw. -/
theorem flattenO_bRaw : (ms : JObj) → ∀ nd ∈ flattenO ms, nd.bRaw = false
  | .onil, nd, hnd => by simp [flattenO] at hnd
  | .ocons k v ms, nd, hnd => by
    simp only [flattenO, List.mem_append] at hnd
    rcases hnd with (h1 | h2) | h3
    · exact flattenV_bRaw k nd h1
    · exact flattenV_bRaw v nd h2
    · exact flattenO_bRaw ms nd h3

end

/-- Reading any index of an all-non-raw node array (the default node
included) yields a non-raw node. -/
theorem getD_bRaw (a : List JsonNode) (ha : ∀ nd ∈ a, nd.bRaw = false)
    (i : Nat) : (a.getD i defNode).bRaw = false := by
  by_cases hi : i < a.length
  · rw [List.getD_eq_getElem _ _ hi]
    exact ha _ (List.getElem_mem hi)
  · rw [List.getD_eq_default _ _ (by omega)]
    rfl

/-- On a node array with no raw nodes the renderer and its
no-re-escaping variant agree exactly (for all three mutual
functions): the `jsonAppendString` branch is never taken. -/
theorem renderNE_eq : ∀ fuel : Nat, ∀ a : List JsonNode,
    (∀ nd ∈ a, nd.bRaw = false) →
    (∀ i p, jsonRenderNode fuel a i p = jsonRenderNodeNE fuel a i p) ∧
    (∀ i p j n, jsonRenderArrLoop fuel a i p j n
      = jsonRenderArrLoopNE fuel a i p j n) ∧
    (∀ i p j n, jsonRenderObjLoop fuel a i p j n
      = jsonRenderObjLoopNE fuel a i p j n) := by
  intro fuel
  induction fuel with
  | zero =>
    intro a ha
    exact ⟨fun i p => rfl, fun i p j n => rfl, fun i p j n => rfl⟩
  | succ m ih =>
    intro a ha
    obtain ⟨ihN, ihA, ihO⟩ := ih a ha
    refine ⟨fun i p => ?_, fun i p j n => ?_, fun i p j n => ?_⟩
    · have hbr : (a.getD i defNode).bRaw = false := getD_bRaw a ha i
      simp only [jsonRenderNode, jsonRenderNodeNE, hbr, Bool.and_false,
        Bool.false_eq_true, if_false, ihA, ihO]
    · simp only [jsonRenderArrLoop, jsonRenderArrLoopNE, ihN, ihA]
    · simp only [jsonRenderObjLoop, jsonRenderObjLoopNE, ihN, ihO]

/-- Claim C9: the parser never produces a raw node — every node of a
successful parse has `bRaw = false` — so rendering a parsed document
coincides with the no-re-escaping renderer for every fuel, index and
accumulator: the `jsonAppendString` path is never taken and every
parsed string span is emitted verbatim. -/
theorem C9_no_raw_nodes (s : List Char) (ns : List JsonNode)
    (h : jsonParse s = (true, ns)) :
    (∀ nd ∈ ns, nd.bRaw = false) ∧
    ∀ fuel i p, jsonRenderNode fuel ns i p = jsonRenderNodeNE fuel ns i p := by
  have hbr : ∀ nd ∈ ns, nd.bRaw = false := by
    rcases parse_root s ns h with hnil | ⟨v, hv⟩
    · subst hnil
      intro nd hnd
      simp at hnd
    · subst hv
      exact flattenV_bRaw v
  exact ⟨hbr, fun fuel i p => (renderNE_eq fuel ns hbr).1 i p⟩

/-- Witness for `C9_no_raw_nodes` at the document `["a\nb"]` (an
escaped string). -/
theorem C9_no_raw_nodes_witness :
    (∀ nd ∈ (jsonParse (charsOf "[\"a\\nb\"]")).2, nd.bRaw = false) ∧
    ∀ fuel i p, jsonRenderNode fuel (jsonParse (charsOf "[\"a\\nb\"]")).2 i p
      = jsonRenderNodeNE fuel (jsonParse (charsOf "[\"a\\nb\"]")).2 i p :=
  C9_no_raw_nodes (charsOf "[\"a\\nb\"]") (jsonParse (charsOf "[\"a\\nb\"]")).2
    (by decide)

/-! ### Emit-side parsing: byte classification helpers -/

/-- The bytes that can directly follow a value inside a minimal
document: the NUL terminator or a structural byte. -/
def sepB (c : Char) : Prop :=
  c = nulC ∨ c = ',' ∨ c = ']' ∨ c = '}' ∨ c = ':'

/-- A separator byte stops every scanner: it is not a digit, not
alphanumeric, not whitespace, and not a number-continuation byte. -/
theorem sepB_facts (c : Char) (h : sepB c) :
    isDigitB c = false ∧ isAlnumB c = false ∧ isSpaceB c = false ∧
    c ≠ '.' ∧ c ≠ 'e' ∧ c ≠ 'E' := by
  rcases h with h | h | h | h | h <;> subst h <;> decide

/-- Digit bytes lie in `[48, 57]`. -/
theorem digit_bounds (c : Char) (h : isDigitB c = true) :
    48 ≤ c.toNat ∧ c.toNat ≤ 57 := by
  simpa [isDigitB] using h

/-- A digit byte differs from any byte whose code is outside `[48, 57]`. -/
theorem digit_ne_of (c : Char) (h : isDigitB c = true) (d : Char)
    (hd : d.toNat < 48 ∨ 57 < d.toNat) : c ≠ d := by
  intro e
  subst e
  have hb := digit_bounds c h
  omega

/-- A digit byte is not whitespace. -/
theorem digit_not_space (c : Char) (h : isDigitB c = true) : isSpaceB c = false := by
  have h1 := digit_ne_of c h ' ' (by decide)
  have h2 := digit_ne_of c h '\t' (by decide)
  have h3 := digit_ne_of c h '\n' (by decide)
  have h4 := digit_ne_of c h (Char.ofNat 11) (by decide)
  have h5 := digit_ne_of c h (Char.ofNat 12) (by decide)
  have h6 := digit_ne_of c h '\r' (by decide)
  simp [isSpaceB, h1, h2, h3, h4, h5, h6]

/-- A digit byte is not a sign byte. -/
theorem digit_not_pm (c : Char) (h : isDigitB c = true) :
    (decide (c = '+') || decide (c = '-')) = false := by
  have h1 := digit_ne_of c h '+' (by decide)
  have h2 := digit_ne_of c h '-' (by decide)
  simp [h1, h2]

/-- Reading the byte at a position described by a suffix decomposition. -/
theorem getC_of_drop (s : List Char) (i : Nat) (c : Char) (l : List Char)
    (h : s.drop i = c :: l) : getC s i = c := by
  unfold getC
  rw [List.getD_eq_getElem?_getD]
  exact getD_of_drop s i c nulC l h

/-- Reading a byte is reading the head of the suffix at that index. -/
theorem getC_eq_head_drop (s : List Char) (k : Nat) :
    getC s k = (s.drop k).getD 0 nulC := by
  unfold getC
  rw [List.getD_eq_getElem?_getD, List.getD_eq_getElem?_getD]
  have h := List.getElem?_drop s k 0
  rw [h]
  simp

/-- `skipWs` does not move when the current byte is not whitespace. -/
theorem skipWs_nop (s : List Char) (i : Nat) (h : isSpaceB (getC s i) = false) :
    skipWs s i = i := by
  unfold skipWs
  rcases hd : s.drop i with _ | ⟨c, l⟩
  · simp [wsGo]
  · have hc : getC s i = c := getC_of_drop s i c l hd
    rw [hc] at h
    simp [wsGo, h]

/-- `matchLit` succeeds on a literal laid out at the scan position. -/
theorem matchLit_of_drop : ∀ (w : List Char) (s : List Char) (i : Nat)
    (rest : List Char), s.drop i = w ++ rest → matchLit s i w = true
  | [], _, _, _, _ => rfl
  | c :: w', s, i, rest, h => by
    have hc : getC s i = c := getC_of_drop s i c (w' ++ rest) (by simpa using h)
    have hd : s.drop (i + 1) = w' ++ rest := by
      have h2 := drop_of_drop s i [c] (w' ++ rest) (by simpa using h)
      simpa using h2
    simp [matchLit, hc, matchLit_of_drop w' s (i + 1) rest hd]

/-- Taking exactly a laid-out prefix returns it. -/
theorem take_append_len {α : Type} (u w : List α) : (u ++ w).take u.length = u := by
  simp

/-- Reading the last slot of an array extended by one node. -/
theorem getD_last_append {α : Type} (xs : List α) (y : α) (d : α) :
    (xs ++ [y]).getD xs.length d = y := by
  rw [List.getD_eq_getElem?_getD]
  exact getD_of_drop _ _ _ _ [] (by rw [List.drop_left])


/-- One scan step over a digit byte: advance, clearing the after-exponent bit. -/
theorem numGo_dstep (c : Char) (rest : List Char) (prev : Char) (j : Nat)
    (dp se ae : Bool) (hc : isDigitB c = true) :
    numGo (c :: rest) prev j dp se ae
      = numGo rest c (j + 1) dp se false := by
  rw [numGo.eq_def]
  dsimp only
  simp [hc, digit_not_pm c hc]

/-- The scan state after a digit run: each digit advances one byte
preserving the flags, ending with the last digit as `prev`. -/
theorem numGo_digits : ∀ (d : List Char), (∀ c ∈ d, isDigitB c = true) →
    ∀ (l : List Char) (prev : Char) (j : Nat) (dp se : Bool),
    numGo (d ++ l) prev j dp se false
      = numGo l (d.getLastD prev) (j + d.length) dp se false
  | [], _, l, prev, j, dp, se => by simp [List.getLastD]
  | c :: d', h, l, prev, j, dp, se => by
    have hc : isDigitB c = true := h c (by simp)
    have hrec := numGo_digits d' (fun x hx => h x (by simp [hx])) l c (j + 1) dp se
    have hidx : j + 1 + d'.length = j + (c :: d').length := by
      simp
      omega
    rw [List.cons_append, numGo_dstep c (d' ++ l) prev j dp se false hc, hrec,
      List.getLastD_cons, ← hidx]

/-- The last byte of a digit run (or the given fallback) is a digit. -/
theorem digits_getLastD : ∀ (d : List Char), (∀ c ∈ d, isDigitB c = true) →
    ∀ (prev : Char), (d = [] → isDigitB prev = true) →
    isDigitB (d.getLastD prev) = true
  | [], _, _, hp => hp rfl
  | c :: d', hd, prev, _ => by
    rw [List.getLastD_cons]
    exact digits_getLastD d' (fun x hx => hd x (by simp [hx])) c
      (fun _ => hd c (by simp))

/-- The scan accepts at a non-continuation byte (or the end) when the
previous byte was a digit. -/
theorem numGo_stop (l : List Char) (prev : Char) (j : Nat) (dp se : Bool)
    (hstop : isDigitB (l.getD 0 nulC) = false ∧ l.getD 0 nulC ≠ '.' ∧
      l.getD 0 nulC ≠ 'e' ∧ l.getD 0 nulC ≠ 'E')
    (hprev : isDigitB prev = true) :
    numGo l prev j dp se false = some (j, dp) := by
  have hge := digit_bounds prev hprev
  rcases l with _ | ⟨c, l'⟩
  · rw [numGo.eq_def]
    dsimp only
    rw [if_neg (by omega)]
  · obtain ⟨h1, h2, h3, h4⟩ := hstop
    simp only [List.getD_cons_zero] at h1 h2 h3 h4
    rw [numGo.eq_def]
    dsimp only
    simp [h1, h2, h3, h4]
    omega

/-- A digit run followed by a stopping byte is accepted whole. -/
theorem numGo_digits_stop (d : List Char) (hd : ∀ c ∈ d, isDigitB c = true)
    (l : List Char) (prev : Char) (hprev : d = [] → isDigitB prev = true)
    (j : Nat) (dp se : Bool)
    (hstop : isDigitB (l.getD 0 nulC) = false ∧ l.getD 0 nulC ≠ '.' ∧
      l.getD 0 nulC ≠ 'e' ∧ l.getD 0 nulC ≠ 'E') :
    numGo (d ++ l) prev j dp se false = some (j + d.length, dp) := by
  rw [numGo_digits d hd l prev j dp se]
  exact numGo_stop l _ _ dp se hstop (digits_getLastD d hd prev hprev)

/-- Scanning an optional exponent part and stopping: the decimal-point
flag is forced on by an exponent. -/
theorem numGo_expo (ex l : List Char) (prev : Char) (j : Nat) (dp : Bool)
    (hprev : isDigitB prev = true)
    (hex : ex = [] ∨ ∃ e sg d3, ex = e :: (sg ++ d3) ∧ (e = 'e' ∨ e = 'E') ∧
      (sg = [] ∨ sg = ['+'] ∨ sg = ['-']) ∧ digitsNE d3)
    (hstop : isDigitB (l.getD 0 nulC) = false ∧ l.getD 0 nulC ≠ '.' ∧
      l.getD 0 nulC ≠ 'e' ∧ l.getD 0 nulC ≠ 'E') :
    numGo (ex ++ l) prev j dp false false
      = some (j + ex.length, dp || !ex.isEmpty) := by
  have hge := digit_bounds prev hprev
  rcases hex with hex | ⟨e, sg, d3, hex, he, hsg, hd3⟩
  · subst hex
    simp only [List.nil_append, List.length_nil, List.isEmpty_nil, Bool.not_true,
      Bool.or_false, Nat.add_zero]
    exact numGo_stop l prev j dp false hstop hprev
  · subst hex
    obtain ⟨hd3ne, hd3d⟩ := hd3
    have hestep : numGo (e :: ((sg ++ d3) ++ l)) prev j dp false false
        = numGo ((sg ++ d3) ++ l) e (j + 1) true true true := by
      rw [numGo.eq_def]
      dsimp only
      have hene : isDigitB e = false := by rcases he with he | he <;> subst he <;> decide
      have hed : e ≠ '.' := by rcases he with he | he <;> subst he <;> decide
      have hee : (decide (e = 'e') || decide (e = 'E')) = true := by
        rcases he with he | he <;> subst he <;> decide
      simp [hene, hed, hee]
      omega
    rw [List.cons_append, hestep]
    rcases d3 with _ | ⟨c3, d3'⟩
    · exact absurd rfl hd3ne
    have hc3 : isDigitB c3 = true := hd3d c3 (by simp)
    rcases hsg with hsg | hsg
    · subst hsg
      rw [List.nil_append, List.cons_append,
        numGo_dstep c3 (d3' ++ l) e (j + 1) true true true hc3,
        numGo_digits_stop d3' (fun x hx => hd3d x (by simp [hx])) l c3
          (fun _ => hc3) (j + 1 + 1) true true hstop]
      simp
      omega
    · have hsstep : ∀ (c4 : Char), c4 = '+' ∨ c4 = '-' →
          numGo (c4 :: ((c3 :: d3') ++ l)) e (j + 1) true true true
            = numGo ((c3 :: d3') ++ l) c4 (j + 1 + 1) true true false := by
        intro c4 hc4
        rw [numGo.eq_def]
        dsimp only
        have hg : (decide (c4 = '+') || decide (c4 = '-')) = true := by
          rcases hc4 with h | h <;> subst h <;> decide
        simp [hg]
      have hsg2 : ∀ (c4 : Char), sg = [c4] → (c4 = '+' ∨ c4 = '-') →
          numGo ((sg ++ c3 :: d3') ++ l) e (j + 1) true true true
            = some (j + (e :: (sg ++ c3 :: d3')).length, dp || true) := by
        intro c4 hsgeq hc4
        subst hsgeq
        rw [List.cons_append, List.nil_append, List.cons_append, hsstep c4 hc4,
          List.cons_append,
          numGo_dstep c3 (d3' ++ l) c4 (j + 1 + 1) true true false hc3,
          numGo_digits_stop d3' (fun x hx => hd3d x (by simp [hx])) l c3
            (fun _ => hc3) (j + 1 + 1 + 1) true true hstop]
        simp
        omega
      rcases hsg with hsg | hsg
      · rw [hsg2 '+' hsg (Or.inl rfl)]
        simp
      · rw [hsg2 '-' hsg (Or.inr rfl)]
        simp

/-- Scanning an optional fraction, then an optional exponent, then
stopping. -/
theorem numGo_frac (fr ex l : List Char) (prev : Char) (j : Nat)
    (hprev : isDigitB prev = true)
    (hfr : fr = [] ∨ ∃ d2, fr = '.' :: d2 ∧ digitsNE d2)
    (hex : ex = [] ∨ ∃ e sg d3, ex = e :: (sg ++ d3) ∧ (e = 'e' ∨ e = 'E') ∧
      (sg = [] ∨ sg = ['+'] ∨ sg = ['-']) ∧ digitsNE d3)
    (hstop : isDigitB (l.getD 0 nulC) = false ∧ l.getD 0 nulC ≠ '.' ∧
      l.getD 0 nulC ≠ 'e' ∧ l.getD 0 nulC ≠ 'E') :
    numGo (fr ++ (ex ++ l)) prev j false false false
      = some (j + fr.length + ex.length, !fr.isEmpty || !ex.isEmpty) := by
  rcases hfr with hfr | ⟨d2, hfr, hd2⟩
  · subst hfr
    rw [List.nil_append]
    rw [numGo_expo ex l prev j false hprev hex hstop]
    simp
  · subst hfr
    obtain ⟨hd2ne, hd2d⟩ := hd2
    have hdstep : numGo ('.' :: (d2 ++ (ex ++ l))) prev j false false false
        = numGo (d2 ++ (ex ++ l)) '.' (j + 1) true false false := by
      rw [numGo.eq_def]
      dsimp only
      have hpm : prev ≠ '-' := digit_ne_of prev hprev '-' (by decide)
      have hdd : isDigitB '.' = false := by decide
      simp [hpm, hdd]
    rw [List.cons_append, hdstep,
      numGo_digits d2 hd2d (ex ++ l) '.' (j + 1) true false]
    have hlast : isDigitB (d2.getLastD '.') = true := by
      rcases d2 with _ | ⟨c2, d2'⟩
      · exact absurd rfl hd2ne
      · exact digits_getLastD _ hd2d '.' (by intro h; exact absurd h (by simp))
    rw [numGo_expo ex l _ _ true hlast hex hstop]
    simp
    omega

/-- Full number-token scan from the byte after the first: the scan
accepts exactly the token and reports whether a fraction or exponent
was present. -/
theorem numGo_whole (d1 fr ex l : List Char) (prev : Char) (j : Nat)
    (hd1 : ∀ c ∈ d1, isDigitB c = true)
    (hpd : d1 = [] → isDigitB prev = true)
    (hfr : fr = [] ∨ ∃ d2, fr = '.' :: d2 ∧ digitsNE d2)
    (hex : ex = [] ∨ ∃ e sg d3, ex = e :: (sg ++ d3) ∧ (e = 'e' ∨ e = 'E') ∧
      (sg = [] ∨ sg = ['+'] ∨ sg = ['-']) ∧ digitsNE d3)
    (hstop : isDigitB (l.getD 0 nulC) = false ∧ l.getD 0 nulC ≠ '.' ∧
      l.getD 0 nulC ≠ 'e' ∧ l.getD 0 nulC ≠ 'E') :
    numGo (d1 ++ (fr ++ (ex ++ l))) prev j false false false
      = some (j + d1.length + fr.length + ex.length, !fr.isEmpty || !ex.isEmpty) := by
  rw [numGo_digits d1 hd1 _ prev j false false,
    numGo_frac fr ex l _ _ (digits_getLastD d1 hd1 prev hpd) hfr hex hstop]


/-- The string scan walks any scannable interior and stops exactly at
the closing quote. -/
theorem strGo_strBody : ∀ (b : List Char), StrBody b → ∀ (l : List Char) (j : Nat),
    strGo (b ++ '"' :: l) j = some (j + b.length) := by
  intro b hb
  induction hb with
  | nil =>
    intro l j
    rw [List.nil_append, strGo.eq_def]
    dsimp only
    rw [if_neg (by decide : ¬('"' : Char) = nulC),
      if_neg (by decide : ¬('"' : Char) = '\\'), if_pos rfl]
    simp
  | esc c rest hc _ ih =>
    intro l j
    rw [List.cons_append, List.cons_append, strGo.eq_def]
    dsimp only
    rw [if_neg (by decide : ¬('\\' : Char) = nulC), if_pos rfl, if_neg hc,
      ih l (j + 2)]
    simp
    omega
  | chr c rest hc hbs hq _ ih =>
    intro l j
    rw [List.cons_append, strGo.eq_def]
    dsimp only
    rw [if_neg hc, if_neg hbs, if_neg hq, ih l (j + 1)]
    simp
    omega


/-- The value parser at a `]` byte returns `-3` without touching the
node array. -/
theorem parseValue_rsq (f : Nat) (s : List Char) (i : Nat) (ns : List JsonNode)
    (hch : getC s (skipWs s i) = ']') :
    jsonParseValue (f + 1) s i ns = (-3, ns) := by
  simp only [jsonParseValue]
  rw [hch]
  simp [nulC, isDigitB]

/-- The value parser at a `}` byte returns `-2` without touching the
node array. -/
theorem parseValue_rcb (f : Nat) (s : List Char) (i : Nat) (ns : List JsonNode)
    (hch : getC s (skipWs s i) = '}') :
    jsonParseValue (f + 1) s i ns = (-2, ns) := by
  simp only [jsonParseValue]
  rw [hch]
  simp [nulC, isDigitB]

/-- The minimal text of a well-formed value is nonempty and starts
with a non-whitespace byte. -/
theorem emitV_head (v : JVal) (hwf : WfV v) :
    ∃ c cs, emitV v = c :: cs ∧ isSpaceB c = false := by
  cases v with
  | vnull => exact ⟨'n', charsOf "ull", by decide, by decide⟩
  | vtrue => exact ⟨'t', charsOf "rue", by decide, by decide⟩
  | vfalse => exact ⟨'f', charsOf "alse", by decide, by decide⟩
  | vnum t r =>
    simp only [WfV] at hwf
    obtain ⟨sgn, d1, fr, ex, ht, hsgn, hd1, -, -, -⟩ := hwf
    rcases hsgn with hsgn | hsgn
    · subst hsgn
      rcases hne : d1 with _ | ⟨c, d1'⟩
      · exact absurd hne hd1.1
      · refine ⟨c, (d1' ++ fr) ++ ex, ?_, ?_⟩
        · simp only [emitV]
          rw [ht, hne]
          simp
        · exact digit_not_space c (hd1.2 c (by rw [hne]; simp))
    · subst hsgn
      refine ⟨'-', (d1 ++ fr) ++ ex, ?_, by decide⟩
      simp only [emitV]
      rw [ht]
      simp
  | vstr t =>
    simp only [WfV] at hwf
    obtain ⟨b, ht, -⟩ := hwf
    exact ⟨'"', b ++ ['"'], by simp only [emitV]; rw [ht], by decide⟩
  | varr es =>
    exact ⟨'[', emitA es ++ [']'], by simp only [emitV], by decide⟩
  | vobj ms =>
    exact ⟨'{', emitO ms ++ ['}'], by simp only [emitV], by decide⟩


mutual

/-- Fuel `jsonParseValue` needs on the minimal text of a value. -/
def needV : JVal → Nat
  | .vnull => 1
  | .vtrue => 1
  | .vfalse => 1
  | .vnum _ _ => 1
  | .vstr _ => 1
  | .varr es => needA es + 2
  | .vobj ms => needO ms + 2

/-- Fuel the array member loop needs (call shape `fuel + 1`). -/
def needA : JArr → Nat
  | .anil => 1
  | .acons v es => max (needV v) (needA es + 1)

/-- Fuel the object member loop needs (call shape `fuel + 1`). -/
def needO : JObj → Nat
  | .onil => 1
  | .ocons k v ms => max (needV k) (max (needV v) (needO ms + 1))

end

/-- At least one unit of fuel is always needed for a value. -/
theorem needV_pos (v : JVal) : 1 ≤ needV v := by
  cases v <;> simp [needV]

/-- At least one unit of fuel is always needed by the array loop. -/
theorem needA_pos (es : JArr) : 1 ≤ needA es := by
  cases es with
  | anil => simp [needA]
  | acons v es =>
    have := needV_pos v
    simp only [needA]
    omega

/-- At least one unit of fuel is always needed by the object loop. -/
theorem needO_pos (ms : JObj) : 1 ≤ needO ms := by
  cases ms with
  | onil => simp [needO]
  | ocons k v ms =>
    have := needV_pos k
    simp only [needO]
    omega

mutual

/-- The needed fuel is within the standard budget for the text length. -/
theorem needV_le : (v : JVal) → needV v ≤ 2 * (emitV v).length + 2
  | .vnull => by simp only [needV]; omega
  | .vtrue => by simp only [needV]; omega
  | .vfalse => by simp only [needV]; omega
  | .vnum t r => by simp only [needV]; omega
  | .vstr t => by simp only [needV]; omega
  | .varr es => by
    have h := needA_le es
    simp only [needV, emitV, List.length_cons, List.length_append]
    omega
  | .vobj ms => by
    have h := needO_le ms
    simp only [needV, emitV, List.length_cons, List.length_append]
    omega

/-- Array-loop fuel is within the budget for the member text length. -/
theorem needA_le : (es : JArr) → needA es ≤ 2 * (emitA es).length + 2
  | .anil => by simp only [needA]; omega
  | .acons v .anil => by
    have h := needV_le v
    simp only [needA, emitA]
    omega
  | .acons v (.acons w es) => by
    have h1 := needV_le v
    have h2 := needA_le (.acons w es)
    simp only [needA, emitA, List.length_append, List.length_cons] at h2 ⊢
    omega

/-- Object-loop fuel is within the budget for the member text length. -/
theorem needO_le : (ms : JObj) → needO ms ≤ 2 * (emitO ms).length + 2
  | .onil => by simp only [needO]; omega
  | .ocons k v .onil => by
    have h1 := needV_le k
    have h2 := needV_le v
    simp only [needO, emitO, List.length_append, List.length_cons]
    omega
  | .ocons k v (.ocons k2 v2 ms) => by
    have h1 := needV_le k
    have h2 := needV_le v
    have h3 := needO_le (.ocons k2 v2 ms)
    simp only [needO, emitO, List.length_append, List.length_cons] at h3 ⊢
    omega

end

/-- The node array the array member loop returns: unchanged for an
empty array (the container keeps count `0`), back-filled with the
descendant count for a nonempty one. -/
def arrClose (ns : List JsonNode) (iThis : Nat) : JArr → List JsonNode
  | .anil => ns
  | .acons v es =>
    setN (ns ++ flattenA (.acons v es)) iThis
      (ns.length + (flattenA (.acons v es)).length - iThis - 1)

/-- The node array the object member loop returns. -/
def objClose (ns : List JsonNode) (iThis : Nat) : JObj → List JsonNode
  | .onil => ns
  | .ocons k v ms =>
    setN (ns ++ flattenO (.ocons k v ms)) iThis
      (ns.length + (flattenO (.ocons k v ms)).length - iThis - 1)
